import Mathlib

/-!
# redir_file: a Caddy HTTP handler that redirects by a table read from a CSV file

Shallow embedding of `redir_file.go` and proofs about it.

* Go strings are modelled by `String` (valid UTF-8 text); a `rune` is an `Int`.
* A `map[string]string` is an association list with pairwise distinct keys.
* A Go call that returns `error` yields an `Outcome`: a nil error, an error with its
  message, or a run-time panic.
* Methods that change their receiver return the receiver after the call.
* The collaborators of the handler that live outside the repository (`os.Open`,
  `encoding/csv`, `net/http.Redirect`, `path.Clean`, `caddyfile.Dispenser`) are modelled
  after their Go sources, restricted to the settings the handler uses. `url.Parse` and
  the verb `%q` of `fmt` are parameters.
* Loops whose Go form is not structurally recursive carry an iteration bound computed from
  their input; the bounds are proved never to be reached.
-/

set_option autoImplicit false

namespace RedirFile

/-! ## Go values -/

/-- The double quote character, U+0022. -/
def dquote : Char := Char.ofNat 34

/-- The line feed character, U+000A. -/
def newline : Char := Char.ofNat 10

/-- The carriage return character, U+000D. -/
def creturn : Char := Char.ofNat 13

/-- Result of a Go call returning `error`: `ok` is `nil`, `err` carries the error text,
`panic` is a run-time panic raised inside the call. -/
inductive Outcome where
  | ok
  | err (msg : String)
  | panic (msg : String)
deriving DecidableEq, Repr

/-- The Go type `Redirects`, a `map[string]string`: the entries of the map, keys pairwise
distinct, in order of first insertion. -/
structure Redirects where
  entries : List (String × String)
deriving DecidableEq, Repr

namespace Redirects

/-- The map `make(Redirects, n)`: no entries. -/
def empty : Redirects := ⟨[]⟩

/-- List level of `set`: replace the value of `k` where it stands, or append `(k, v)`. -/
def setEntries (k v : String) : List (String × String) → List (String × String)
  | [] => [(k, v)]
  | (k', v') :: rest => if k' = k then (k, v) :: rest else (k', v') :: setEntries k v rest

/-- The assignment `t[k] = v`. -/
def set (t : Redirects) (k v : String) : Redirects := ⟨setEntries k v t.entries⟩

/-- The lookup `v, ok := t[k]`: `some v` when `ok`. -/
def get (t : Redirects) (k : String) : Option String := t.entries.lookup k

/-- The builtin `len(t)`. -/
def len (t : Redirects) : Nat := t.entries.length

end Redirects

/-! ## encoding/csv, as configured by `Provision`

`csv.NewReader` followed by an assignment to `Comma` only: `Comment` is 0, `FieldsPerRecord`
starts at 0, `LazyQuotes`, `TrimLeadingSpace` and `ReuseRecord` are false. The branches of
the reader for other settings are left out. -/

namespace csv

/-- Errors of the reader. `outOfFuel` is no error of `encoding/csv`: it marks a loop of the
model that hit its iteration bound. -/
inductive Err where
  | errInvalidDelim
  | ErrBareQuote
  | ErrQuote
  | ErrFieldCount
  | errRead
  | outOfFuel
deriving DecidableEq, Repr

/-- Go's `utf8.ValidRune`. -/
def ValidRune (r : Int) : Bool :=
  (0 ≤ r && r < 0xD800) || (0xDFFF < r && r ≤ 0x10FFFF)

/-- Go's `validDelim`: a delimiter is not 0, `"`, `\r`, `\n`, an invalid rune or U+FFFD. -/
def validDelim (r : Int) : Bool :=
  r != 0 && r != 34 && r != 13 && r != 10 && ValidRune r && r != 0xFFFD

/-- Comparison `rn == r.Comma` of a decoded rune with the delimiter. -/
def isComma (comma : Int) (c : Char) : Bool := (c.toNat : Int) == comma

/-- Go's `lengthNL`: 1 when the line ends in `\n`, else 0. -/
def lengthNL (b : List Char) : Nat :=
  if b.getLast? = some newline then 1 else 0

/-- What one read of a line yields: the line, whether the read reported `io.EOF`, and
the input left unread. -/
structure Line where
  line : List Char
  eof : Bool
  rest : List Char
deriving DecidableEq, Repr

/-- The call `r.r.ReadSlice('\n')`: the input through the first `\n`, or all that is left
together with `io.EOF`. -/
def readSlice : List Char → Line
  | [] => ⟨[], true, []⟩
  | c :: cs =>
    if c = newline then ⟨[c], false, cs⟩
    else Line.mk (c :: (readSlice cs).line) (readSlice cs).eof (readSlice cs).rest

/-- First step of `readLine`: a last line that ends the input without `\n` is no EOF, and
loses a trailing `\r`. -/
def dropFinalCR (s : Line) : Line :=
  if 0 < s.line.length ∧ s.eof = true then
    Line.mk (if s.line.getLast? = some creturn then s.line.dropLast else s.line) false s.rest
  else s

/-- Second step of `readLine`: a trailing `\r\n` becomes `\n`. -/
def normalizeCRLF (s : Line) : Line :=
  if 2 ≤ s.line.length ∧ s.line.get? (s.line.length - 2) = some creturn
      ∧ s.line.get? (s.line.length - 1) = some newline then
    Line.mk (s.line.take (s.line.length - 2) ++ [newline]) s.eof s.rest
  else s

/-- Go's `(*Reader).readLine`. -/
def readLine (inp : List Char) : Line :=
  normalizeCRLF (dropFinalCR (readSlice inp))

/-- Split a line at the first character satisfying `p` (as `bytes.IndexRune` and the two
slices around the index): `none` when there is none. -/
def cut (p : Char → Bool) : List Char → Option (List Char × List Char)
  | [] => none
  | c :: cs =>
    if p c then some ([], cs)
    else match cut p cs with
      | none => none
      | some (a, b) => some (c :: a, b)

/-- How the loop over a quoted field ends. -/
inductive QuotedEnd where
  | comma (field line rest : List Char)
  | eol (field rest : List Char)
  | err (e : Err)
deriving DecidableEq, Repr

/-- The inner loop of `readRecord` for a quoted field, entered after the opening quote:
`buf` is the field read so far, `line` the rest of the current line, `rest` the unread
input. -/
def quotedField (comma : Int) : Nat → List Char → List Char → List Char → QuotedEnd
  | 0, _, _, _ => .err .outOfFuel
  | fuel + 1, buf, line, rest =>
    match cut (fun c => c == dquote) line with
    | some (pre, post) =>
      -- hit next quote
      match post with
      | [] => .eol (buf ++ pre) rest
      | c :: post' =>
        if c = dquote then quotedField comma fuel (buf ++ pre ++ [dquote]) post' rest
        else if isComma comma c then .comma (buf ++ pre) post' rest
        else if lengthNL post = post.length then .eol (buf ++ pre) rest
        else .err .ErrQuote
    | none =>
      if 0 < line.length then
        -- hit end of line: copy all data so far and read the next line
        quotedField comma fuel (buf ++ line) (readLine rest).line (readLine rest).rest
      else
        -- abrupt end of file
        .err .ErrQuote

/-- The loop `parseField` of `readRecord`: the fields of the record that starts with
`line`, appended to `fields`, and the input left unread after it. -/
def parseFields (comma : Int) :
    Nat → List String → List Char → List Char → Except Err (List String × List Char)
  | 0, _, _, _ => .error .outOfFuel
  | fuel + 1, fields, line, rest =>
    if line.head? ≠ some dquote then
      -- non-quoted string field
      match cut (isComma comma) line with
      | some (field, line') =>
        if dquote ∈ field then .error .ErrBareQuote
        else parseFields comma fuel (fields ++ [String.mk field]) line' rest
      | none =>
        let field := line.take (line.length - lengthNL line)
        if dquote ∈ field then .error .ErrBareQuote
        else .ok (fields ++ [String.mk field], rest)
    else
      -- quoted string field
      match quotedField comma fuel [] line.tail rest with
      | .comma field line' rest' =>
        parseFields comma fuel (fields ++ [String.mk field]) line' rest'
      | .eol field rest' => .ok (fields ++ [String.mk field], rest')
      | .err e => .error e

/-- The first loop of `readRecord`: read lines, skipping empty ones. -/
def skipEmpty : Nat → List Char → Option Line
  | 0, _ => none
  | fuel + 1, inp =>
    let l := readLine inp
    if l.eof = false ∧ l.line.length = lengthNL l.line then skipEmpty fuel l.rest
    else some l

/-- State of a `csv.Reader`: the delimiter, the expected number of fields per record
(0: not yet fixed) and the underlying source, `none` when reading it fails. -/
structure Reader where
  Comma : Int
  FieldsPerRecord : Nat
  input : Option (List Char)
deriving DecidableEq, Repr

/-- Go's `(*Reader).readRecord`: `none` for `io.EOF`, or the record and the reader after
it. -/
def readRecord (r : Reader) : Except Err (Option (List String × Reader)) :=
  if !validDelim r.Comma then .error .errInvalidDelim
  else match r.input with
    | none => .error .errRead
    | some inp =>
      match skipEmpty (inp.length + 1) inp with
      | none => .error .outOfFuel
      | some l =>
        if l.eof then .ok none
        else match parseFields r.Comma (inp.length + 1) [] l.line l.rest with
          | .error e => .error e
          | .ok (dst, rest) =>
            if 0 < r.FieldsPerRecord then
              if dst.length ≠ r.FieldsPerRecord then .error .ErrFieldCount
              else .ok (some (dst, Reader.mk r.Comma r.FieldsPerRecord (some rest)))
            else .ok (some (dst, Reader.mk r.Comma dst.length (some rest)))

/-- The loop of `ReadAll`. -/
def readAllLoop : Nat → Reader → List (List String) → Except Err (List (List String))
  | 0, _, _ => .error .outOfFuel
  | fuel + 1, r, records =>
    match readRecord r with
    | .error e => .error e
    | .ok none => .ok records
    | .ok (some (record, r')) => readAllLoop fuel r' (records ++ [record])

/-- Go's `(*Reader).ReadAll`: all remaining records, or the first error. -/
def Reader.ReadAll (r : Reader) : Except Err (List (List String)) :=
  readAllLoop ((r.input.getD []).length + 1) r []

end csv

/-! ## net/http, as used by `ServeHTTP`

`http.Redirect` after its Go source. `url.Parse` is a parameter: the model only needs
whether it succeeds and whether it finds a scheme or a host. The escaped path of the
request, against which `Redirect` resolves a relative target, is part of the request. -/

namespace http

/-- What `Redirect` reads of a parsed `*url.URL`. -/
structure URL where
  Scheme : String
  Host : String
deriving DecidableEq, Repr

/-- A function standing for `url.Parse`: `none` when it returns an error. -/
abbrev UrlParse := String → Option URL

/-- An `*http.Request`: its method, `r.URL.Path`, and the value of `r.URL.EscapedPath()`,
the path in its percent-encoded form. -/
structure Request where
  Method : String
  Path : String
  EscapedPath : String
deriving DecidableEq, Repr

/-- A call of a writing method of an `http.ResponseWriter`. -/
inductive WriterCall where
  | WriteHeader (code : Nat)
  | Write (data : String)
deriving DecidableEq, Repr

/-- An `http.ResponseWriter`: the header map `w.Header()` (keys distinct) and the calls of
`WriteHeader` and `Write` made on it so far, oldest first. -/
structure ResponseWriter where
  Header : List (String × List String)
  calls : List WriterCall
deriving DecidableEq, Repr

/-- The lookup `h[key]` in a header map. -/
def headerGet (h : List (String × List String)) (key : String) : Option (List String) :=
  h.lookup key

/-- The call `h.Set(key, value)` for a key in canonical form: the entry of `key` becomes the
single value. -/
def headerSet (key value : String) : List (String × List String) → List (String × List String)
  | [] => [(key, [value])]
  | (k, vs) :: rest =>
    if k = key then (key, [value]) :: rest else (k, vs) :: headerSet key value rest

/-- The bytes of the UTF-8 encoding of a character, as Go stores it in a string. -/
def utf8Bytes (c : Char) : List Nat :=
  let n := c.toNat
  if n < 0x80 then [n]
  else if n < 0x800 then [0xC0 + n / 64, 0x80 + n % 64]
  else if n < 0x10000 then [0xE0 + n / 4096, 0x80 + n / 64 % 64, 0x80 + n % 64]
  else [0xF0 + n / 262144, 0x80 + n / 4096 % 64, 0x80 + n / 64 % 64, 0x80 + n % 64]

/-- A hexadecimal digit, lower case, as `strconv.AppendInt(_, _, 16)` writes it. -/
def hexDigit (n : Nat) : Char :=
  if n < 10 then Char.ofNat (48 + n) else Char.ofNat (87 + n)

/-- Go's `hexEscapeNonASCII`: every byte from 0x80 on becomes `%` and its two hex digits. -/
def hexEscapeNonASCII (s : String) : String :=
  String.mk (s.toList.flatMap fun c =>
    if c.toNat < 0x80 then [c]
    else (utf8Bytes c).flatMap fun b => ['%', hexDigit (b / 16), hexDigit (b % 16)])

/-- Go's `htmlEscape` (the replacer `htmlReplacer`). -/
def htmlEscape (s : String) : String :=
  String.join (s.toList.map fun c =>
    if c = '&' then "&amp;"
    else if c = '<' then "&lt;"
    else if c = '>' then "&gt;"
    else if c = dquote then "&#34;"
    else if c.toNat = 39 then "&#39;"
    else String.singleton c)

/-- Go's `http.StatusText` on the redirection codes. -/
def StatusText (code : Nat) : String :=
  if code = 300 then "Multiple Choices"
  else if code = 301 then "Moved Permanently"
  else if code = 302 then "Found"
  else if code = 303 then "See Other"
  else if code = 304 then "Not Modified"
  else if code = 305 then "Use Proxy"
  else if code = 307 then "Temporary Redirect"
  else if code = 308 then "Permanent Redirect"
  else ""

/-- The constant `http.StatusMovedPermanently`. -/
def StatusMovedPermanently : Nat := 301

/-- Go's `path.Split`, first result: the path through its last slash. -/
def splitDir (p : List Char) : List Char :=
  (p.reverse.dropWhile fun c => c != '/').reverse

/-- The backtracking of `path.Clean` on a `..` element: from write index `w + 1` step back
while above `dotdot` and not on a slash. -/
def backtrack (out : List Char) (dotdot : Nat) : Nat → Nat
  | 0 => 0
  | w + 1 => if dotdot < w + 1 ∧ out.get? (w + 1) ≠ some '/' then backtrack out dotdot w else w + 1

/-- The loop of `path.Clean`: `rest` is the path from the read index on, `out` the buffer
written so far. -/
def cleanLoop (rooted : Bool) : Nat → List Char → List Char → Nat → List Char
  | 0, _, out, _ => out
  | fuel + 1, rest, out, dotdot =>
    match rest with
    | [] => out
    | c :: rest1 =>
      if c = '/' then
        -- empty path element
        cleanLoop rooted fuel rest1 out dotdot
      else if c = '.' ∧ (rest1 = [] ∨ rest1.head? = some '/') then
        -- . element
        cleanLoop rooted fuel rest1 out dotdot
      else if c = '.' ∧ rest1.head? = some '.' ∧
          (rest1.tail = [] ∨ rest1.tail.head? = some '/') then
        -- .. element: remove to last slash
        if dotdot < out.length then
          cleanLoop rooted fuel rest1.tail (out.take (backtrack out dotdot (out.length - 1))) dotdot
        else if !rooted then
          let out1 := (if 0 < out.length then out ++ ['/'] else out) ++ ['.', '.']
          cleanLoop rooted fuel rest1.tail out1 out1.length
        else cleanLoop rooted fuel rest1.tail out dotdot
      else
        -- real path element: add slash if needed, copy element
        let out1 := if (rooted ∧ out.length ≠ 1) ∨ (!rooted ∧ out.length ≠ 0) then out ++ ['/'] else out
        cleanLoop rooted fuel (rest.dropWhile fun x => x != '/')
          (out1 ++ rest.takeWhile fun x => x != '/') dotdot

/-- Go's `path.Clean`. -/
def Clean (p : List Char) : List Char :=
  if p = [] then ['.']
  else
    let rooted : Bool := p.head? = some '/'
    let out := if rooted then cleanLoop true (p.length + 1) p.tail ['/'] 1
               else cleanLoop false (p.length + 1) p [] 0
    if out.length = 0 then ['.'] else out

/-- The step of `Redirect` that makes a relative target absolute: a target that is empty or
does not start with a slash is put behind the directory of `oldpath`. -/
def makeAbsolute (oldpath url : List Char) : List Char :=
  if url = [] ∨ url.head? ≠ some '/' then splitDir oldpath ++ url else url

/-- The step of `Redirect` that cleans the target: the part before the first `?` goes
through `path.Clean`, gets back the trailing slash it had, and the query is put behind. -/
def cleanKeepingSlash (url : List Char) : List Char :=
  let path := url.takeWhile fun c => c != '?'
  let query := url.dropWhile fun c => c != '?'
  let trailing : Bool := path.getLast? = some '/'
  let cleaned := Clean path
  (if trailing ∧ cleaned.getLast? ≠ some '/' then cleaned ++ ['/'] else cleaned) ++ query

/-- The part of `Redirect` that rewrites the target: a target in which `url.Parse` finds
neither scheme nor host is made absolute against `oldpath`, the escaped path of the request
(`/` when that is empty), and cleaned. -/
def redirectURL (parse : UrlParse) (escapedPath url : String) : String :=
  match parse url with
  | none => url
  | some u =>
    if u.Scheme = "" ∧ u.Host = "" then
      let oldpath := if escapedPath = "" then "/" else escapedPath
      String.mk (cleanKeepingSlash (makeAbsolute oldpath.toList url.toList))
    else url

/-- Go's `http.Redirect`. -/
def Redirect (parse : UrlParse) (w : ResponseWriter) (r : Request) (url : String)
    (code : Nat) : ResponseWriter :=
  let url1 := redirectURL parse r.EscapedPath url
  let hadCT : Bool := (headerGet w.Header "Content-Type").isSome
  let h1 := headerSet "Location" (hexEscapeNonASCII url1) w.Header
  let h2 := if !hadCT ∧ (r.Method = "GET" ∨ r.Method = "HEAD") then
      headerSet "Content-Type" "text/html; charset=utf-8" h1 else h1
  let calls1 := w.calls ++ [WriterCall.WriteHeader code]
  let calls2 := if !hadCT ∧ r.Method = "GET" then
      calls1 ++ [WriterCall.Write ("<a href=\"" ++ htmlEscape url1 ++ "\">" ++ StatusText code
        ++ "</a>.\n" ++ "\n")]
    else calls1
  ⟨h2, calls2⟩

end http

/-! ## The handler -/

/-- An open `*os.File`: its contents, `none` when reading it fails. -/
structure File where
  contents : Option String
deriving DecidableEq, Repr

/-- The files `os.Open` sees: `none` when the call returns an error. -/
abbrev FileSystem := String → Option File

/-- Go's `csv.NewReader`. -/
def csv.NewReader (f : File) : csv.Reader :=
  ⟨44, 0, f.contents.map String.toList⟩

/-- The assignment `csvReader.Comma = comma`. -/
def csv.Reader.withComma (r : csv.Reader) (comma : Int) : csv.Reader :=
  ⟨comma, r.FieldsPerRecord, r.input⟩

/-- A `*zap.Logger`: the messages logged at level info, oldest first. -/
structure Logger where
  infos : List String
deriving DecidableEq, Repr

/-- The method `Info` of a logger. -/
def Logger.Info (l : Logger) (msg : String) : Logger := ⟨l.infos ++ [msg]⟩

/-- A `caddy.Context`, as far as `Provision` uses it: the logger it hands out. -/
structure Context where
  Logger : Logger

/-- The struct `Middleware`. `redirects` and `logger` are `none` while nil. -/
structure Middleware where
  Path : String
  Type_ : String
  CsvSeparator : Int
  redirects : Option Redirects
  logger : Option Logger
deriving DecidableEq, Repr

/-- The value `new(Middleware)` with the exported fields set as the JSON configuration
gives them. -/
def Middleware.new (path type : String) (sep : Int) : Middleware :=
  ⟨path, type, sep, none, none⟩

/-- The body of the loop of `Provision` over `data`, from index `i` on: the table after the
loop and the panic that stopped it, if any. -/
def loadRows : Nat → List (List String) → Redirects → Redirects × Option String
  | _, [], t => (t, none)
  | i, line :: rest, t =>
    if i = 0 then loadRows (i + 1) rest t
    else match line.get? 0 with
      | none => (t, some "runtime error: index out of range [0] with length 0")
      | some k =>
        match line.get? 1 with
        | none =>
          (t, some ("runtime error: index out of range [1] with length " ++ toString line.length))
        | some v => loadRows (i + 1) rest (t.set k v)

/-- The method `Provision`: the handler after the call and what the call returned. The
deferred `f.Close()` changes nothing the model keeps. -/
def Provision (os : FileSystem) (ctx : Context) (m : Middleware) : Middleware × Outcome :=
  let m1 : Middleware := ⟨m.Path, m.Type_, m.CsvSeparator, m.redirects, some ctx.Logger⟩
  match os m1.Path with
  | none => (m1, .err ("failed reading file " ++ m1.Path))
  | some f =>
    if m1.Type_ = "csv" then
      let csvReader := (csv.NewReader f).withComma m1.CsvSeparator
      match csvReader.ReadAll with
      | .error _ => (m1, .err ("failed reading file " ++ m1.Path ++ " as CSV"))
      | .ok data =>
        match loadRows 0 data Redirects.empty with
        | (t, some p) =>
          (⟨m1.Path, m1.Type_, m1.CsvSeparator, some t, m1.logger⟩, .panic p)
        | (t, none) =>
          (⟨m1.Path, m1.Type_, m1.CsvSeparator, some t,
            some (ctx.Logger.Info ("loaded " ++ toString t.len ++ " redirects from CSV file "
              ++ m1.Path))⟩, .ok)
    else (m1, .err ("unsupported file type given " ++ m1.Type_))

/-- A `caddyhttp.Handler`: what its `ServeHTTP` does to the response writer and what it
returns. -/
abbrev Handler := http.ResponseWriter → http.Request → http.ResponseWriter × Outcome

/-- What a call of `Middleware.ServeHTTP` did: the response writer after it, the value
returned, and the calls of `next.ServeHTTP` made, with their arguments. -/
structure Served where
  w : http.ResponseWriter
  ret : Outcome
  nextCalls : List (http.ResponseWriter × http.Request)
deriving DecidableEq, Repr

/-- The index expression `m.redirects[key]` with its `ok`; reading a nil map finds
nothing. -/
def Middleware.lookup (m : Middleware) (key : String) : Option String :=
  match m.redirects with
  | none => none
  | some t => t.get key

/-- The method `ServeHTTP`. -/
def ServeHTTP (parse : http.UrlParse) (m : Middleware) (w : http.ResponseWriter)
    (r : http.Request) (next : Handler) : Served :=
  match m.lookup r.Path with
  | some newPath => ⟨http.Redirect parse w r newPath http.StatusMovedPermanently, .ok, []⟩
  | none => ⟨(next w r).1, (next w r).2, [(w, r)]⟩

/-! ## caddyfile.Dispenser, as used by `UnmarshalCaddyfile`

The token cursor of Caddy's `caddyfile` package after its Go source, for tokens of one
file. Errors carry their text without the file and line the dispenser puts around it; the
verb `%q` of `fmt` is a parameter of the functions that format with it. -/

namespace caddyfile

/-- A `caddyfile.Token`: its text (quotes removed), the line it starts on, and whether it
was written in quotes. -/
structure Token where
  Text : String
  Line : Nat
  Quoted : Bool
deriving DecidableEq, Repr

/-- A `caddyfile.Dispenser`. -/
structure Dispenser where
  tokens : List Token
  cursor : Int
  nesting : Int
deriving DecidableEq, Repr

/-- Go's `NewDispenser`. -/
def NewDispenser (tokens : List Token) : Dispenser := ⟨tokens, -1, 0⟩

/-- The token at an index. -/
def Dispenser.token (d : Dispenser) (i : Int) : Option Token :=
  if i < 0 then none else d.tokens.get? i.toNat

/-- Go's `(*Dispenser).Val`. -/
def Dispenser.Val (d : Dispenser) : String :=
  if d.cursor < 0 ∨ (d.tokens.length : Int) ≤ d.cursor then ""
  else match d.token d.cursor with
    | some t => t.Text
    | none => ""

/-- Whether the token under the cursor was written in quotes. -/
def Dispenser.Quoted (d : Dispenser) : Bool :=
  match d.token d.cursor with
  | some t => t.Quoted
  | none => false

/-- Go's `(*Dispenser).Next`. -/
def Dispenser.Next (d : Dispenser) : Bool × Dispenser :=
  if d.cursor < (d.tokens.length : Int) - 1 then (true, ⟨d.tokens, d.cursor + 1, d.nesting⟩)
  else (false, d)

/-- Go's `Token.NumLineBreaks`: the line breaks inside the token's text. -/
def Token.NumLineBreaks (t : Token) : Nat := t.Text.toList.count newline

/-- Go's `isNextOnNewLine` for two tokens of the same file. -/
def isNextOnNewLine (t1 t2 : Token) : Bool := t1.Line + t1.NumLineBreaks < t2.Line

/-- Go's `(*Dispenser).nextOnSameLine`. -/
def Dispenser.nextOnSameLine (d : Dispenser) : Bool × Dispenser :=
  if d.cursor < 0 then (true, ⟨d.tokens, d.cursor + 1, d.nesting⟩)
  else if (d.tokens.length : Int) - 1 ≤ d.cursor then (false, d)
  else match d.token d.cursor, d.token (d.cursor + 1) with
    | some curr, some next =>
      if !isNextOnNewLine curr next then (true, ⟨d.tokens, d.cursor + 1, d.nesting⟩)
      else (false, d)
    | _, _ => (false, d)

/-- Go's `(*Dispenser).NextArg`: the next token of the line, unless it opens a block; an
opening brace written in quotes is an argument. -/
def Dispenser.NextArg (d : Dispenser) : Bool × Dispenser :=
  let d1 := d.nextOnSameLine
  if !d1.1 then (false, d1.2)
  else if d1.2.Val = "\x7b" ∧ d1.2.Quoted = false then
    (false, ⟨d1.2.tokens, d1.2.cursor - 1, d1.2.nesting⟩)
  else (true, d1.2)

/-- The loop of `RemainingArgs`. `none`: the iteration bound of the model was hit. -/
def remainingArgsLoop : Nat → Dispenser → List String → Option (List String × Dispenser)
  | 0, _, _ => none
  | fuel + 1, d, args =>
    let d1 := d.NextArg
    if d1.1 then remainingArgsLoop fuel d1.2 (args ++ [d1.2.Val]) else some (args, d1.2)

/-- Go's `(*Dispenser).RemainingArgs`. -/
def Dispenser.RemainingArgs (d : Dispenser) : Option (List String × Dispenser) :=
  remainingArgsLoop (d.tokens.length + 2) d []

/-- The second condition of the nesting update in `NextBlock`,
`d.Val() == "{" && !d.nextOnSameLine()`, with the increment it guards. -/
def Dispenser.openNesting (d : Dispenser) : Dispenser :=
  if d.Val = "\x7b" then
    let s := d.nextOnSameLine
    if !s.1 then ⟨s.2.tokens, s.2.cursor, s.2.nesting + 1⟩ else s.2
  else d

/-- The nesting update of `NextBlock`: `if d.Val() == "}" && !d.nextOnSameLine()` lowers the
nesting; when that condition fails, after the move of `nextOnSameLine` if it was made, the
`else if` is tried on the token then under the cursor. -/
def Dispenser.updateNesting (d : Dispenser) : Dispenser :=
  if d.Val = "\x7d" then
    let s := d.nextOnSameLine
    if !s.1 then ⟨s.2.tokens, s.2.cursor, s.2.nesting - 1⟩ else s.2.openNesting
  else d.openNesting

/-- Go's `(*Dispenser).NextBlock`. -/
def Dispenser.NextBlock (d : Dispenser) (initialNestingLevel : Int) : Bool × Dispenser :=
  if initialNestingLevel < d.nesting then
    let d1 := d.Next
    if !d1.1 then (false, d1.2)
    else (decide (initialNestingLevel < d1.2.updateNesting.nesting), d1.2.updateNesting)
  else
    let d1 := d.nextOnSameLine
    if !d1.1 then (false, d1.2)
    else if d1.2.Val ≠ "\x7b" then (false, ⟨d1.2.tokens, d1.2.cursor - 1, d1.2.nesting⟩)
    else
      let d2 := d1.2.Next.2
      if d2.Val = "\x7d" then (false, d2)
      else (true, ⟨d2.tokens, d2.cursor, d2.nesting + 1⟩)

/-- Go's `(*Dispenser).ArgErr`, the text of the error. -/
def Dispenser.ArgErr (d : Dispenser) : String :=
  if d.Val = "\x7b" then "unexpected token '\x7b', expecting argument"
  else "wrong argument count or unexpected line ending after '" ++ d.Val ++ "'"

end caddyfile

/-- What a call on a dispenser left behind: the handler, the dispenser, and the value the
call returned. -/
structure Unmarshalled where
  m : Middleware
  d : caddyfile.Dispenser
  ret : Outcome
deriving DecidableEq, Repr

/-- The conversion `[]rune(s)`. -/
def runes (s : String) : List Int := s.toList.map fun c => (c.toNat : Int)

/-- The inner loop `for d.NextBlock(0)` of `UnmarshalCaddyfile`: the handler, the dispenser
and the value of the `return` that left the loop, if one did. The outer `none`: the
iteration bound of the model was hit. `quote` stands for the verb `%q` of `fmt` on a
string, Go's `strconv.Quote`. -/
def blockLoop (quote : String → String) : Nat → Middleware → caddyfile.Dispenser →
    Option (Middleware × caddyfile.Dispenser × Option Outcome)
  | 0, _, _ => none
  | fuel + 1, m, d =>
    let b := d.NextBlock 0
    if !b.1 then some (m, b.2, none)
    else if b.2.Val = "path" then
      match b.2.RemainingArgs with
      | none => none
      | some (args, d1) =>
        if args.length ≠ 1 then some (m, d1, some (.err d1.ArgErr))
        else blockLoop quote fuel ⟨args.headD "", m.Type_, m.CsvSeparator, m.redirects, m.logger⟩ d1
    else if b.2.Val = "type" then
      match b.2.RemainingArgs with
      | none => none
      | some (args, d1) =>
        if args.length ≠ 1 then some (m, d1, some (.err d1.ArgErr))
        else blockLoop quote fuel ⟨m.Path, args.headD "", m.CsvSeparator, m.redirects, m.logger⟩ d1
    else if b.2.Val = "csv_separator" then
      match b.2.RemainingArgs with
      | none => none
      | some (args, d1) =>
        if args.length ≠ 1 then some (m, d1, some (.err d1.ArgErr))
        else match (runes (args.headD "")).head? with
          | none =>
            some (m, d1, some (.panic "runtime error: index out of range [0] with length 0"))
          | some c => blockLoop quote fuel ⟨m.Path, m.Type_, c, m.redirects, m.logger⟩ d1
    else some (m, b.2, some (.err ("unrecognized subdirective " ++ quote b.2.Val)))

/-- The outer loop `for d.Next()` of `UnmarshalCaddyfile`. -/
def nextLoop (quote : String → String) :
    Nat → Middleware → caddyfile.Dispenser → Option Unmarshalled
  | 0, _, _ => none
  | fuel + 1, m, d =>
    let n := d.Next
    if !n.1 then some ⟨m, n.2, .ok⟩
    else
      match n.2.RemainingArgs with
      | none => none
      | some (args, d1) =>
        if 0 < args.length then some ⟨m, d1, .err d1.ArgErr⟩
        else match blockLoop quote (d1.tokens.length + 2) m d1 with
          | none => none
          | some (m1, d2, some ret) => some ⟨m1, d2, ret⟩
          | some (m1, d2, none) => nextLoop quote fuel m1 d2

/-- The method `UnmarshalCaddyfile`. `none`: the iteration bound of the model was hit. -/
def UnmarshalCaddyfile (quote : String → String) (m : Middleware)
    (d : caddyfile.Dispenser) : Option Unmarshalled :=
  nextLoop quote (d.tokens.length + 2) m d

/-- The function `parseCaddyfile`, given `h.Dispenser`: the handler it returns and the
error. -/
def parseCaddyfile (quote : String → String) (d : caddyfile.Dispenser) :
    Option Unmarshalled :=
  UnmarshalCaddyfile quote ⟨"", "", 44, none, none⟩ d

/-! ## Notions of the statements and example inputs -/

/-- The table after assigning the first two fields of every row, in order. -/
def insertRows (rows : List (List String)) (t : Redirects) : Redirects :=
  rows.foldl (fun acc r => acc.set (r.getD 0 "") (r.getD 1 "")) t

/-- The source of the specification's example. -/
def exampleCSV : String := "from,to\n/old,/new\n/a,/b\n"

/-- A file system holding `redirects.csv` with the given contents and nothing else. -/
def oneFile (contents : String) : FileSystem :=
  fun p => if p = "redirects.csv" then some ⟨some contents⟩ else none

/-- A context whose logger has logged nothing. -/
def freshCtx : Context := ⟨⟨[]⟩⟩

/-- The handler configured for `redirects.csv` with a format tag and a separator. -/
def configured (type : String) (sep : Int) : Middleware :=
  Middleware.new "redirects.csv" type sep

/-- The example source with the key `/old` given twice more. -/
def duplicateCSV : String := "from,to\n/old,/first\n/a,/b\n/old,/second\n/old,/third\n"

/-- A next handler that answers 404 and returns nil. -/
def notFound : Handler :=
  fun w _ => (⟨w.Header, w.calls ++ [http.WriterCall.WriteHeader 404]⟩, Outcome.ok)

/-- A provisioned handler with the given table. -/
def withTable (entries : List (String × String)) : Middleware :=
  ⟨"redirects.csv", "csv", 44, some ⟨entries⟩, none⟩

/-- A handler whose table sends `/old` to a target holding a character outside ASCII. -/
def accented : Middleware := withTable [("/old", "/é")]

/-- The result of `url.Parse` on a target that is a path: no scheme, no host. -/
def parsePath : http.UrlParse := fun _ => some ⟨"", ""⟩

/-- The tokens of the block `redir_file { path redirects.csv; type csv }`, one option a
line. -/
def plainBlock : caddyfile.Dispenser :=
  caddyfile.NewDispenser [⟨"redir_file", 1, false⟩, ⟨"\x7b", 1, false⟩, ⟨"path", 2, false⟩,
    ⟨"redirects.csv", 2, false⟩, ⟨"type", 3, false⟩, ⟨"csv", 3, false⟩, ⟨"\x7d", 4, false⟩]

/-- The tokens of the block `redir_file { csv_separator "" }`. -/
def emptySeparatorBlock : caddyfile.Dispenser :=
  caddyfile.NewDispenser [⟨"redir_file", 1, false⟩, ⟨"\x7b", 1, false⟩,
    ⟨"csv_separator", 2, false⟩, ⟨"", 2, true⟩, ⟨"\x7d", 3, false⟩]

/-- A provisioned handler with a relative target, a clean one and one to be cleaned. -/
def mixedTable : Middleware :=
  withTable [("/a b/old", "new"), ("/old", "/new"), ("/x", "/a//b/../c/")]

/-- A path element in clean form: not empty, without slash or question mark, and neither
`.` nor `..`. -/
def IsElem (s : List Char) : Prop :=
  s ≠ [] ∧ '/' ∉ s ∧ '?' ∉ s ∧ s ≠ ['.'] ∧ s ≠ ['.', '.']

instance (s : List Char) : Decidable (IsElem s) :=
  inferInstanceAs (Decidable (s ≠ [] ∧ '/' ∉ s ∧ '?' ∉ s ∧ s ≠ ['.'] ∧ s ≠ ['.', '.']))

/-- Path elements joined by single slashes. -/
def joinSlash : List (List Char) → List Char
  | [] => []
  | [s] => s
  | s :: t :: ss => s ++ '/' :: joinSlash (t :: ss)

/-- An absolute path in clean form as a redirect target: a slash, elements joined by
slashes, a trailing slash when `trailing` is set and there is an element, and a query
(empty, or starting with `?`). -/
def cleanTarget (segs : List (List Char)) (trailing : Bool) (query : List Char) : String :=
  String.mk ('/' :: joinSlash segs ++ (if trailing = true ∧ segs ≠ [] then ['/'] else [])
    ++ query)

/-- The cursor of a dispenser is in range: from -1, before the first token, to the number of
tokens. -/
def caddyfile.Dispenser.InRange (d : caddyfile.Dispenser) : Prop :=
  -1 ≤ d.cursor ∧ d.cursor ≤ d.tokens.length

instance (d : caddyfile.Dispenser) : Decidable d.InRange :=
  inferInstanceAs (Decidable (-1 ≤ d.cursor ∧ d.cursor ≤ d.tokens.length))

/-- A dispenser `e` is `d` moved on: same tokens, cursor in range and not before that of
`d`. -/
def caddyfile.Dispenser.MovedOn (d e : caddyfile.Dispenser) : Prop :=
  e.tokens = d.tokens ∧ e.InRange ∧ d.cursor ≤ e.cursor

instance (d e : caddyfile.Dispenser) : Decidable (d.MovedOn e) :=
  inferInstanceAs (Decidable (e.tokens = d.tokens ∧ e.InRange ∧ d.cursor ≤ e.cursor))

/-! ## Lemmas on the map -/

theorem lookup_setEntries_self (k v : String) (l : List (String × String)) :
    (Redirects.setEntries k v l).lookup k = some v := by
  induction l with
  | nil => simp [Redirects.setEntries, List.lookup]
  | cons p rest ih =>
    obtain ⟨k', v'⟩ := p
    by_cases h : k' = k
    · simp [Redirects.setEntries, h, List.lookup]
    · have hb : (k == k') = false := by simpa using Ne.symm h
      simp [Redirects.setEntries, h, List.lookup, hb, ih]

theorem lookup_setEntries_ne (k v a : String) (h : a ≠ k) (l : List (String × String)) :
    (Redirects.setEntries k v l).lookup a = l.lookup a := by
  induction l with
  | nil =>
    have hb : (a == k) = false := by simpa using h
    simp [Redirects.setEntries, List.lookup, hb]
  | cons p rest ih =>
    obtain ⟨k', v'⟩ := p
    by_cases hk : k' = k
    · subst hk
      have hb : (a == k') = false := by simpa using h
      simp [Redirects.setEntries, List.lookup, hb]
    · by_cases ha : a = k'
      · simp [Redirects.setEntries, hk, List.lookup, ha]
      · have hb : (a == k') = false := by simpa using ha
        simp [Redirects.setEntries, hk, List.lookup, hb, ih]

theorem length_setEntries (k v : String) (l : List (String × String)) :
    (Redirects.setEntries k v l).length = if l.lookup k = none then l.length + 1 else l.length := by
  induction l with
  | nil => simp [Redirects.setEntries]
  | cons p rest ih =>
    obtain ⟨k', v'⟩ := p
    by_cases hk : k' = k
    · subst hk
      simp [Redirects.setEntries, List.lookup]
    · have hb : (k == k') = false := by simpa using Ne.symm hk
      simp only [Redirects.setEntries, hk, if_false, List.length_cons, ih, List.lookup, hb]
      split <;> rfl

theorem Redirects.get_set_self (t : Redirects) (k v : String) : (t.set k v).get k = some v :=
  lookup_setEntries_self k v t.entries

theorem Redirects.get_set_ne (t : Redirects) (k v a : String) (h : a ≠ k) :
    (t.set k v).get a = t.get a :=
  lookup_setEntries_ne k v a h t.entries

theorem Redirects.len_set (t : Redirects) (k v : String) :
    (t.set k v).len = if t.get k = none then t.len + 1 else t.len :=
  length_setEntries k v t.entries

/-! ## The loops of the CSV reader end within their bounds -/

theorem readSlice_length (inp : List Char) :
    (csv.readSlice inp).line.length + (csv.readSlice inp).rest.length = inp.length := by
  induction inp with
  | nil => rfl
  | cons c cs ih =>
    unfold csv.readSlice
    split
    · simp only [List.length_cons, List.length_nil]
      omega
    · simp only [List.length_cons]
      omega

theorem readSlice_line_pos (inp : List Char) (h : inp ≠ []) :
    0 < (csv.readSlice inp).line.length := by
  cases inp with
  | nil => exact absurd rfl h
  | cons c cs =>
    unfold csv.readSlice
    split <;> simp

theorem dropFinalCR_spec (s : csv.Line) :
    (csv.dropFinalCR s).rest = s.rest ∧ (csv.dropFinalCR s).line.length ≤ s.line.length ∧
      (0 < s.line.length → (csv.dropFinalCR s).eof = false) := by
  unfold csv.dropFinalCR
  by_cases h : 0 < s.line.length ∧ s.eof = true
  · simp only [h, and_self, if_true, true_and]
    refine ⟨?_, fun _ => trivial⟩
    split
    · simp only [List.length_dropLast]
      omega
    · exact Nat.le_refl _
  · simp only [h, if_false, true_and]
    refine ⟨Nat.le_refl _, fun hpos => ?_⟩
    cases he : s.eof with
    | false => rfl
    | true => exact absurd ⟨hpos, he⟩ h

theorem normalizeCRLF_spec (s : csv.Line) :
    (csv.normalizeCRLF s).rest = s.rest ∧ (csv.normalizeCRLF s).line.length ≤ s.line.length ∧
      (csv.normalizeCRLF s).eof = s.eof := by
  unfold csv.normalizeCRLF
  split
  · rename_i h
    simp only [List.length_append, List.length_take, List.length_singleton, true_and, and_true]
    omega
  · exact ⟨rfl, Nat.le_refl _, rfl⟩

theorem readLine_length (inp : List Char) :
    (csv.readLine inp).line.length + (csv.readLine inp).rest.length ≤ inp.length := by
  have h1 := normalizeCRLF_spec (csv.dropFinalCR (csv.readSlice inp))
  have h2 := dropFinalCR_spec (csv.readSlice inp)
  have h3 := readSlice_length inp
  unfold csv.readLine
  rw [h1.1, h2.1]
  omega

theorem readLine_rest_lt (inp : List Char) (h : inp ≠ []) :
    (csv.readLine inp).rest.length < inp.length := by
  have h1 := normalizeCRLF_spec (csv.dropFinalCR (csv.readSlice inp))
  have h2 := dropFinalCR_spec (csv.readSlice inp)
  have h3 := readSlice_length inp
  have h4 := readSlice_line_pos inp h
  unfold csv.readLine
  rw [h1.1, h2.1]
  omega

theorem readLine_eof (inp : List Char) (h : (csv.readLine inp).eof = true) : inp = [] := by
  by_contra hne
  have h1 := normalizeCRLF_spec (csv.dropFinalCR (csv.readSlice inp))
  have h2 := dropFinalCR_spec (csv.readSlice inp)
  have h4 := readSlice_line_pos inp hne
  unfold csv.readLine at h
  rw [h1.2.2, h2.2.2 h4] at h
  exact Bool.noConfusion h

theorem skipEmpty_spec (fuel : Nat) (inp : List Char) (hfuel : inp.length < fuel) :
    ∃ l, csv.skipEmpty fuel inp = some l ∧ l.line.length + l.rest.length ≤ inp.length ∧
      (l.eof = false → l.rest.length < inp.length) := by
  induction fuel generalizing inp with
  | zero => omega
  | succ n ih =>
    unfold csv.skipEmpty
    simp only []
    have hlen := readLine_length inp
    split
    · rename_i hskip
      have hne : inp ≠ [] := by
        intro e
        subst e
        exact absurd hskip.1 (by decide)
      have hlt := readLine_rest_lt inp hne
      obtain ⟨l, hl, hb, he⟩ := ih (csv.readLine inp).rest (by omega)
      exact ⟨l, hl, by omega, fun _ => by omega⟩
    · refine ⟨_, rfl, hlen, fun he => ?_⟩
      apply readLine_rest_lt
      intro e
      subst e
      exact absurd he (by decide)

theorem cut_length (p : Char → Bool) (l a b : List Char) (h : csv.cut p l = some (a, b)) :
    a.length + b.length + 1 = l.length := by
  induction l generalizing a b with
  | nil => simp [csv.cut] at h
  | cons c cs ih =>
    unfold csv.cut at h
    split at h
    · cases h
      simp
    · split at h
      · exact Option.noConfusion h
      · rename_i a' b' hcut
        cases h
        have := ih a' b hcut
        simp only [List.length_cons]
        omega

theorem quotedField_spec (comma : Int) (fuel : Nat) (buf line rest : List Char)
    (hfuel : line.length + rest.length < fuel) :
    csv.quotedField comma fuel buf line rest ≠ .err .outOfFuel ∧
      (∀ f l' r', csv.quotedField comma fuel buf line rest = .comma f l' r' →
        l'.length + r'.length ≤ line.length + rest.length ∧ r'.length ≤ rest.length) ∧
      (∀ f r', csv.quotedField comma fuel buf line rest = .eol f r' →
        r'.length ≤ rest.length) := by
  induction fuel generalizing buf line rest with
  | zero => omega
  | succ n ih =>
    unfold csv.quotedField
    split
    · rename_i pre post hcut
      have hc := cut_length _ _ _ _ hcut
      split
      · refine ⟨by simp, by simp, ?_⟩
        intro f r' h
        cases h
        exact Nat.le_refl _
      · rename_i c post'
        simp only [List.length_cons] at hc
        split
        · obtain ⟨h1, h2, h3⟩ := ih (buf ++ pre ++ [dquote]) post' rest (by omega)
          refine ⟨h1, fun f l' r' h => ?_, h3⟩
          have := h2 f l' r' h
          omega
        · split
          · refine ⟨by simp, ?_, by simp⟩
            intro f l' r' h
            cases h
            omega
          · split
            · refine ⟨by simp, by simp, ?_⟩
              intro f r' h
              cases h
              exact Nat.le_refl _
            · exact ⟨by simp, by simp, by simp⟩
    · split
      · rename_i hpos
        have hl := readLine_length rest
        obtain ⟨h1, h2, h3⟩ := ih (buf ++ line) (csv.readLine rest).line (csv.readLine rest).rest
          (by omega)
        refine ⟨h1, fun f l' r' h => ?_, fun f r' h => ?_⟩
        · have := h2 f l' r' h
          omega
        · have := h3 f r' h
          omega
      · exact ⟨by simp, by simp, by simp⟩

theorem parseFields_spec (comma : Int) (fuel : Nat) (fields : List String) (line rest : List Char)
    (hfuel : line.length + rest.length < fuel) :
    csv.parseFields comma fuel fields line rest ≠ .error .outOfFuel ∧
      ∀ dst r', csv.parseFields comma fuel fields line rest = .ok (dst, r') →
        r'.length ≤ rest.length := by
  induction fuel generalizing fields line rest with
  | zero => omega
  | succ n ih =>
    unfold csv.parseFields
    split
    · split
      · rename_i field line' hcut
        have hc := cut_length _ _ _ _ hcut
        split
        · exact ⟨by simp, by simp⟩
        · exact ih _ line' rest (by omega)
      · simp only []
        split
        · exact ⟨by simp, by simp⟩
        · refine ⟨by simp, ?_⟩
          intro dst r' h
          cases h
          exact Nat.le_refl _
    · rename_i hquoted
      have htail : line.tail.length + rest.length < n := by
        cases line with
        | nil => exact absurd (by simp) hquoted
        | cons c cs => simp only [List.tail_cons, List.length_cons] at *; omega
      obtain ⟨q1, q2, q3⟩ := quotedField_spec comma n [] line.tail rest htail
      split
      · rename_i field line' rest' hq
        have hb := q2 field line' rest' hq
        obtain ⟨h1, h2⟩ := ih (fields ++ [String.mk field]) line' rest' (by omega)
        refine ⟨h1, fun dst r' h => ?_⟩
        have := h2 dst r' h
        omega
      · rename_i field rest' hq
        refine ⟨by simp, ?_⟩
        intro dst r' h
        cases h
        exact q3 field _ hq
      · rename_i e hq
        refine ⟨fun h => ?_, by simp⟩
        cases h
        exact q1 hq

theorem readRecord_spec (r : csv.Reader) :
    csv.readRecord r ≠ .error .outOfFuel ∧
      ∀ dst r', csv.readRecord r = .ok (some (dst, r')) →
        (r'.input.getD []).length < (r.input.getD []).length := by
  unfold csv.readRecord
  split
  · exact ⟨by simp, by simp⟩
  · split
    · exact ⟨by simp, by simp⟩
    · rename_i inp hinp
      obtain ⟨l, hl, hb, he⟩ := skipEmpty_spec (inp.length + 1) inp (by omega)
      rw [hl]
      simp only []
      split
      · exact ⟨by simp, by simp⟩
      · rename_i heof
        have heof' : l.eof = false := by
          cases h : l.eof with
          | false => rfl
          | true => exact absurd h heof
        have hlt := he heof'
        obtain ⟨p1, p2⟩ := parseFields_spec r.Comma (inp.length + 1) [] l.line l.rest (by omega)
        split
        · rename_i e hp
          refine ⟨fun h => ?_, by simp⟩
          cases h
          exact p1 hp
        · rename_i dst rest hp
          have hr := p2 dst rest hp
          split
          · split
            · exact ⟨by simp, by simp⟩
            · refine ⟨by simp, ?_⟩
              intro dst' r' h
              cases h
              simp only [hinp, Option.getD_some]
              omega
          · refine ⟨by simp, ?_⟩
            intro dst' r' h
            cases h
            simp only [hinp, Option.getD_some]
            omega

theorem readAllLoop_spec (fuel : Nat) (r : csv.Reader) (records : List (List String))
    (hfuel : (r.input.getD []).length < fuel) :
    csv.readAllLoop fuel r records ≠ .error .outOfFuel := by
  induction fuel generalizing r records with
  | zero => omega
  | succ n ih =>
    obtain ⟨h1, h2⟩ := readRecord_spec r
    unfold csv.readAllLoop
    split
    · rename_i e he
      intro h
      cases h
      exact h1 he
    · simp
    · rename_i record r' he
      have := h2 record r' he
      exact ih r' _ (by omega)

/-- The reader always ends within the iteration bounds of the model: `ReadAll` never
reports `outOfFuel`. -/
theorem ReadAll_within_bounds (r : csv.Reader) : r.ReadAll ≠ .error .outOfFuel :=
  readAllLoop_spec _ r [] (Nat.lt_succ_self _)

/-! ## The loop of `path.Clean` ends within its bound -/

/-- Any two iteration bounds above the length of the path left to read give the same
result: the loop of `path.Clean` ends before its bound is reached. -/
theorem cleanLoop_fuel (rooted : Bool) (f n : Nat) (rest out : List Char) (dotdot : Nat)
    (hf : rest.length < f) (hn : rest.length < n) :
    http.cleanLoop rooted f rest out dotdot = http.cleanLoop rooted n rest out dotdot := by
  induction f generalizing n rest out dotdot with
  | zero => omega
  | succ f ih =>
    cases n with
    | zero => omega
    | succ n =>
      cases rest with
      | nil => simp [http.cleanLoop]
      | cons c rest1 =>
        simp only [List.length_cons] at hf hn
        have ht : rest1.tail.length ≤ rest1.length := by
          simp only [List.length_tail]
          omega
        simp only [http.cleanLoop]
        split
        · exact ih _ _ _ _ (by omega) (by omega)
        · rename_i hslash
          split
          · exact ih _ _ _ _ (by omega) (by omega)
          · split
            · split
              · exact ih _ _ _ _ (by omega) (by omega)
              · split
                · exact ih _ _ _ _ (by omega) (by omega)
                · exact ih _ _ _ _ (by omega) (by omega)
            · have hd : ((c :: rest1).dropWhile fun x => x != '/').length ≤ rest1.length := by
                have hc : (c != '/') = true := by simpa using hslash
                rw [List.dropWhile_cons, if_pos hc]
                exact (List.dropWhile_sublist _).length_le
              exact ih _ _ _ _ (by omega) (by omega)

/-! ## The loops of `UnmarshalCaddyfile` end within their bounds -/

open caddyfile in
theorem Next_spec (d : Dispenser) (h : d.InRange) :
    d.MovedOn d.Next.2 ∧ (d.Next.1 = true → d.cursor < d.Next.2.cursor) := by
  unfold Dispenser.MovedOn Dispenser.InRange at *
  unfold Dispenser.Next
  split
  · simp only [true_and, forall_const]
    omega
  · simp only [true_and]
    exact ⟨⟨h, Int.le_refl _⟩, fun hb => Bool.noConfusion hb⟩

open caddyfile in
theorem nextOnSameLine_spec (d : Dispenser) (h : d.InRange) :
    d.MovedOn d.nextOnSameLine.2 ∧
      (d.nextOnSameLine.1 = true → d.cursor < d.nextOnSameLine.2.cursor) := by
  have hrefl : d.MovedOn d ∧ ((false, d).1 = true → d.cursor < d.cursor) :=
    ⟨⟨rfl, h, Int.le_refl _⟩, fun hb => Bool.noConfusion hb⟩
  unfold Dispenser.MovedOn Dispenser.InRange at *
  unfold Dispenser.nextOnSameLine
  split
  · simp only [true_and, forall_const]
    omega
  · split
    · exact hrefl
    · split
      · split
        · simp only [true_and, forall_const]
          omega
        · exact hrefl
      · exact hrefl

open caddyfile in
theorem MovedOn_trans {a b c : Dispenser} (h1 : a.MovedOn b) (h2 : b.MovedOn c) :
    a.MovedOn c :=
  ⟨h2.1.trans h1.1, h2.2.1, Int.le_trans h1.2.2 h2.2.2⟩

open caddyfile in
theorem NextArg_spec (d : Dispenser) (h : d.InRange) :
    d.MovedOn d.NextArg.2 ∧ (d.NextArg.1 = true → d.cursor < d.NextArg.2.cursor) := by
  obtain ⟨h1, h2⟩ := nextOnSameLine_spec d h
  unfold Dispenser.NextArg
  simp only []
  split
  · exact ⟨h1, fun hb => Bool.noConfusion hb⟩
  · rename_i hb
    have hlt := h2 (by simpa using hb)
    split
    · refine ⟨?_, fun hb => Bool.noConfusion hb⟩
      obtain ⟨htok, ⟨hlo, hhi⟩, hle⟩ := h1
      rw [htok] at hhi
      have hd := h.1
      exact ⟨htok, ⟨by show (-1 : Int) ≤ d.nextOnSameLine.2.cursor - 1; omega,
        by show d.nextOnSameLine.2.cursor - 1 ≤ (d.nextOnSameLine.2.tokens.length : Int)
           rw [htok]; omega⟩,
        by show d.cursor ≤ d.nextOnSameLine.2.cursor - 1; omega⟩
    · exact ⟨h1, fun _ => hlt⟩

open caddyfile in
theorem remainingArgsLoop_spec (fuel : Nat) (d : Dispenser) (args : List String)
    (h : d.InRange) (hf : (d.tokens.length : Int) - d.cursor < fuel) :
    ∃ a e, remainingArgsLoop fuel d args = some (a, e) ∧ d.MovedOn e := by
  induction fuel generalizing d args with
  | zero =>
    unfold Dispenser.InRange at h
    omega
  | succ n ih =>
    obtain ⟨h1, h2⟩ := NextArg_spec d h
    unfold remainingArgsLoop
    simp only []
    split
    · rename_i hb
      have hlt := h2 hb
      have htok := h1.1
      obtain ⟨a, e, he, hm⟩ := ih d.NextArg.2 (args ++ [d.NextArg.2.Val]) h1.2.1 (by
        rw [htok]
        push_cast at hf ⊢
        omega)
      exact ⟨a, e, he, MovedOn_trans h1 hm⟩
    · exact ⟨_, _, rfl, h1⟩

open caddyfile in
theorem RemainingArgs_spec (d : Dispenser) (h : d.InRange) :
    ∃ a e, d.RemainingArgs = some (a, e) ∧ d.MovedOn e := by
  apply remainingArgsLoop_spec _ d [] h
  unfold Dispenser.InRange at h
  push_cast
  omega

open caddyfile in
theorem MovedOn_nesting {d e : Dispenser} (h : d.MovedOn e) (n : Int) :
    d.MovedOn ⟨e.tokens, e.cursor, n⟩ :=
  ⟨h.1, h.2.1, h.2.2⟩

open caddyfile in
theorem MovedOn_refl (d : Dispenser) (h : d.InRange) : d.MovedOn d :=
  ⟨rfl, h, Int.le_refl _⟩

open caddyfile in
theorem openNesting_spec (d : Dispenser) (h : d.InRange) : d.MovedOn d.openNesting := by
  obtain ⟨s1, _⟩ := nextOnSameLine_spec d h
  unfold Dispenser.openNesting
  split
  · simp only []
    split
    · exact MovedOn_nesting s1 _
    · exact s1
  · exact MovedOn_refl d h

open caddyfile in
theorem updateNesting_spec (d : Dispenser) (h : d.InRange) : d.MovedOn d.updateNesting := by
  obtain ⟨s1, _⟩ := nextOnSameLine_spec d h
  unfold Dispenser.updateNesting
  split
  · simp only []
    split
    · exact MovedOn_nesting s1 _
    · exact MovedOn_trans s1 (openNesting_spec _ s1.2.1)
  · exact openNesting_spec d h

open caddyfile in
theorem NextBlock_spec (d : Dispenser) (lvl : Int) (h : d.InRange) :
    d.MovedOn (d.NextBlock lvl).2 ∧
      ((d.NextBlock lvl).1 = true → d.cursor < (d.NextBlock lvl).2.cursor) := by
  unfold Dispenser.NextBlock
  split
  · obtain ⟨n1, n2⟩ := Next_spec d h
    simp only []
    split
    · exact ⟨n1, fun hb => Bool.noConfusion hb⟩
    · rename_i hb
      have hlt := n2 (by simpa using hb)
      have hu := updateNesting_spec d.Next.2 n1.2.1
      exact ⟨MovedOn_trans n1 hu, fun _ => Int.lt_of_lt_of_le hlt hu.2.2⟩
  · obtain ⟨s1, s2⟩ := nextOnSameLine_spec d h
    simp only []
    split
    · exact ⟨s1, fun hb => Bool.noConfusion hb⟩
    · rename_i hb
      have hlt := s2 (by simpa using hb)
      split
      · refine ⟨?_, fun hb => Bool.noConfusion hb⟩
        obtain ⟨htok, ⟨hlo, hhi⟩, hle⟩ := s1
        rw [htok] at hhi
        have hd := h.1
        exact ⟨htok, ⟨by show (-1 : Int) ≤ d.nextOnSameLine.2.cursor - 1; omega,
          by show d.nextOnSameLine.2.cursor - 1 ≤ (d.nextOnSameLine.2.tokens.length : Int)
             rw [htok]; omega⟩,
          by show d.cursor ≤ d.nextOnSameLine.2.cursor - 1; omega⟩
      · obtain ⟨n1, _⟩ := Next_spec d.nextOnSameLine.2 s1.2.1
        have hm := MovedOn_trans s1 n1
        split
        · exact ⟨hm, fun hb => Bool.noConfusion hb⟩
        · exact ⟨MovedOn_nesting hm _, fun _ => Int.lt_of_lt_of_le hlt n1.2.2⟩

open caddyfile in
theorem blockLoop_spec (quote : String → String) (fuel : Nat) (m : Middleware) (d : Dispenser)
    (h : d.InRange) (hf : (d.tokens.length : Int) - d.cursor < fuel) :
    ∃ m' e o, blockLoop quote fuel m d = some (m', e, o) ∧ d.MovedOn e := by
  induction fuel generalizing m d with
  | zero =>
    unfold Dispenser.InRange at h
    omega
  | succ n ih =>
    obtain ⟨b1, b2⟩ := NextBlock_spec d 0 h
    obtain ⟨a, e, hra, hm⟩ := RemainingArgs_spec (d.NextBlock 0).2 b1.2.1
    have hme := MovedOn_trans b1 hm
    have step : ∀ m1 : Middleware, (d.NextBlock 0).1 = true →
        ∃ m' e' o, blockLoop quote n m1 e = some (m', e', o) ∧ d.MovedOn e' := by
      intro m1 hb
      have hlt := b2 hb
      obtain ⟨m', e', o, he, hm'⟩ := ih m1 e hm.2.1 (by
        have h1 := hme.1
        have h2 := hm.2.2
        rw [h1]
        push_cast at hf ⊢
        omega)
      exact ⟨m', e', o, he, MovedOn_trans hme hm'⟩
    unfold blockLoop
    simp only []
    split
    · exact ⟨_, _, _, rfl, b1⟩
    · rename_i hb
      have hb' : (d.NextBlock 0).1 = true := by simpa using hb
      split
      · rw [hra]
        simp only []
        split
        · exact ⟨_, _, _, rfl, hme⟩
        · exact step _ hb'
      · split
        · rw [hra]
          simp only []
          split
          · exact ⟨_, _, _, rfl, hme⟩
          · exact step _ hb'
        · split
          · rw [hra]
            simp only []
            split
            · exact ⟨_, _, _, rfl, hme⟩
            · split
              · exact ⟨_, _, _, rfl, hme⟩
              · exact step _ hb'
          · exact ⟨_, _, _, rfl, b1⟩

open caddyfile in
theorem nextLoop_spec (quote : String → String) (fuel : Nat) (m : Middleware) (d : Dispenser)
    (h : d.InRange) (hf : (d.tokens.length : Int) - d.cursor < fuel) :
    ∃ u, nextLoop quote fuel m d = some u := by
  induction fuel generalizing m d with
  | zero =>
    unfold Dispenser.InRange at h
    omega
  | succ n ih =>
    obtain ⟨n1, n2⟩ := Next_spec d h
    obtain ⟨a, e, hra, hm⟩ := RemainingArgs_spec d.Next.2 n1.2.1
    obtain ⟨m', e', o, hbl, hm'⟩ := blockLoop_spec quote (e.tokens.length + 2) m e hm.2.1 (by
      have := hm.2.1.1
      push_cast
      omega)
    unfold nextLoop
    simp only []
    split
    · exact ⟨_, rfl⟩
    · rename_i hb
      have hlt := n2 (by simpa using hb)
      rw [hra]
      simp only []
      split
      · exact ⟨_, rfl⟩
      · rw [hbl]
        cases o with
        | some ret => exact ⟨_, rfl⟩
        | none =>
          simp only []
          apply ih m' e' hm'.2.1
          have h1 := (MovedOn_trans (MovedOn_trans n1 hm) hm').1
          have h2 := hm.2.2
          have h3 := hm'.2.2
          rw [h1]
          push_cast at hf ⊢
          omega

/-- On a dispenser whose cursor is in range, as that of every new dispenser is,
`UnmarshalCaddyfile` ends within the iteration bounds of the model. -/
theorem UnmarshalCaddyfile_returns (quote : String → String) (m : Middleware)
    (d : caddyfile.Dispenser) (h : d.InRange) : ∃ u, UnmarshalCaddyfile quote m d = some u := by
  apply nextLoop_spec quote _ m d h
  unfold caddyfile.Dispenser.InRange at h
  push_cast
  omega

/-- The dispenser `parseCaddyfile` is given is new: the call ends within the bounds. -/
theorem parseCaddyfile_returns (quote : String → String) (tokens : List caddyfile.Token) :
    ∃ u, parseCaddyfile quote (caddyfile.NewDispenser tokens) = some u := by
  apply UnmarshalCaddyfile_returns
  unfold caddyfile.Dispenser.InRange caddyfile.NewDispenser
  simp only []
  omega

/-! ## Lemmas on the loop of `Provision` -/

theorem get?_of_two_le {r : List String} (h : 2 ≤ r.length) :
    r.get? 0 = some (r.getD 0 "") ∧ r.get? 1 = some (r.getD 1 "") := by
  match r, h with
  | a :: b :: _, _ => simp

theorem loadRows_succ (rows : List (List String)) (h : ∀ r ∈ rows, 2 ≤ r.length)
    (i : Nat) (t : Redirects) :
    loadRows (i + 1) rows t = (insertRows rows t, none) := by
  induction rows generalizing i t with
  | nil => simp [loadRows, insertRows]
  | cons r rs ih =>
    have hr := get?_of_two_le (h r (List.mem_cons_self _ _))
    have hrs : ∀ x ∈ rs, 2 ≤ x.length := fun x hx => h x (List.mem_cons_of_mem _ hx)
    rw [loadRows]
    simp only [Nat.succ_ne_zero, if_false, hr.1, hr.2, Nat.add_one_ne_zero]
    rw [ih hrs]
    simp [insertRows]

theorem loadRows_header (hdr : List String) (rows : List (List String))
    (h : ∀ r ∈ rows, 2 ≤ r.length) :
    loadRows 0 (hdr :: rows) Redirects.empty = (insertRows rows Redirects.empty, none) := by
  rw [loadRows]
  simp only [if_true]
  exact loadRows_succ rows h 0 _

theorem insertRows_get_absent (k : String) (rows : List (List String))
    (h : ∀ r ∈ rows, r.get? 0 ≠ some k) (hlen : ∀ r ∈ rows, 2 ≤ r.length) (t : Redirects) :
    (insertRows rows t).get k = t.get k := by
  induction rows generalizing t with
  | nil => simp [insertRows]
  | cons r rs ih =>
    have hr := get?_of_two_le (hlen r (List.mem_cons_self _ _))
    have hk : k ≠ r.getD 0 "" := by
      intro e
      exact h r (List.mem_cons_self _ _) (by rw [hr.1, e])
    have step : insertRows (r :: rs) t = insertRows rs (t.set (r.getD 0 "") (r.getD 1 "")) := by
      simp [insertRows]
    rw [step, ih (fun x hx => h x (List.mem_cons_of_mem _ hx))
      (fun x hx => hlen x (List.mem_cons_of_mem _ hx)), Redirects.get_set_ne _ _ _ _ hk]

theorem insertRows_append (pre post : List (List String)) (t : Redirects) :
    insertRows (pre ++ post) t = insertRows post (insertRows pre t) := by
  simp [insertRows, List.foldl_append]

theorem insertRows_get_last (k v : String) (pre post : List (List String)) (row : List String)
    (hk : row.get? 0 = some k) (hv : row.get? 1 = some v)
    (hpost : ∀ r ∈ post, r.get? 0 ≠ some k) (hlen : ∀ r ∈ post, 2 ≤ r.length) (t : Redirects) :
    (insertRows (pre ++ row :: post) t).get k = some v := by
  have hk' : row.getD 0 "" = k := by
    cases row with
    | nil => simp at hk
    | cons a _ => simpa using hk
  have hv' : row.getD 1 "" = v := by
    match row, hv with
    | _ :: b :: _, hv => simpa using hv
  have step : insertRows (row :: post) (insertRows pre t)
      = insertRows post ((insertRows pre t).set k v) := by
    rw [← hk', ← hv']
    simp [insertRows]
  rw [insertRows_append, step, insertRows_get_absent k post hpost hlen, Redirects.get_set_self]

theorem insertRows_get_some (k v : String) (rows : List (List String)) (t : Redirects)
    (h : (insertRows rows t).get k = some v) :
    t.get k = some v ∨ ∃ r ∈ rows, r.getD 0 "" = k ∧ r.getD 1 "" = v := by
  induction rows generalizing t with
  | nil => left; simpa [insertRows] using h
  | cons r rs ih =>
    have step : insertRows (r :: rs) t = insertRows rs (t.set (r.getD 0 "") (r.getD 1 "")) := by
      simp [insertRows]
    rw [step] at h
    rcases ih _ h with h1 | ⟨x, hx, h2⟩
    · by_cases e : k = r.getD 0 ""
      · right
        refine ⟨r, List.mem_cons_self _ _, e.symm, ?_⟩
        rw [e, Redirects.get_set_self] at h1
        exact Option.some.inj h1
      · left
        rwa [Redirects.get_set_ne _ _ _ _ e] at h1
    · exact Or.inr ⟨x, List.mem_cons_of_mem _ hx, h2⟩

theorem insertRows_len (rows : List (List String)) (hlen : ∀ r ∈ rows, 2 ≤ r.length)
    (hd : rows.Pairwise fun a b => a.get? 0 ≠ b.get? 0) (t : Redirects)
    (hfresh : ∀ r ∈ rows, t.get (r.getD 0 "") = none) :
    (insertRows rows t).len = t.len + rows.length := by
  induction rows generalizing t with
  | nil => simp [insertRows]
  | cons r rs ih =>
    have step : insertRows (r :: rs) t = insertRows rs (t.set (r.getD 0 "") (r.getD 1 "")) := by
      simp [insertRows]
    have hr := get?_of_two_le (hlen r (List.mem_cons_self _ _))
    rw [List.pairwise_cons] at hd
    have hrs : ∀ x ∈ rs, 2 ≤ x.length := fun x hx => hlen x (List.mem_cons_of_mem _ hx)
    rw [step, ih hrs hd.2, Redirects.len_set, hfresh r (List.mem_cons_self _ _)]
    · simp only [if_true, List.length_cons]
      omega
    · intro x hx
      have hx2 := get?_of_two_le (hrs x hx)
      have hne : x.getD 0 "" ≠ r.getD 0 "" := by
        intro e
        apply hd.1 x hx
        rw [hr.1, hx2.1, e]
      rw [Redirects.get_set_ne _ _ _ _ hne]
      exact hfresh x (List.mem_cons_of_mem _ hx)

theorem Provision_csv_ok (os : FileSystem) (ctx : Context) (m : Middleware) (f : File)
    (hdr : List String) (rows : List (List String))
    (hopen : os m.Path = some f) (htype : m.Type_ = "csv")
    (hread : ((csv.NewReader f).withComma m.CsvSeparator).ReadAll = .ok (hdr :: rows))
    (hlen : ∀ r ∈ rows, 2 ≤ r.length) :
    (Provision os ctx m).2 = Outcome.ok ∧
      (Provision os ctx m).1.redirects = some (insertRows rows Redirects.empty) := by
  simp [Provision, hopen, htype, hread, loadRows_header hdr rows hlen]

/-! ## Table construction -/

/-- C1: a source that parses into a header and N data rows of at least two fields each, with
pairwise distinct first fields, makes `Provision` succeed with a table of exactly N entries
that maps the first field of every data row to its second field; every entry of the table
comes from a data row, so the header contributes none. -/
theorem Provision_unique_rows (os : FileSystem) (ctx : Context) (m : Middleware) (f : File)
    (hdr : List String) (rows : List (List String))
    (hopen : os m.Path = some f) (htype : m.Type_ = "csv")
    (hread : ((csv.NewReader f).withComma m.CsvSeparator).ReadAll = .ok (hdr :: rows))
    (hlen : ∀ r ∈ rows, 2 ≤ r.length)
    (hdistinct : rows.Pairwise fun a b => a.get? 0 ≠ b.get? 0) :
    (Provision os ctx m).2 = Outcome.ok ∧
      ∃ t, (Provision os ctx m).1.redirects = some t ∧ t.len = rows.length ∧
        (∀ r ∈ rows, ∀ k v, r.get? 0 = some k → r.get? 1 = some v → t.get k = some v) ∧
        (∀ k v, t.get k = some v → ∃ r ∈ rows, r.get? 0 = some k ∧ r.get? 1 = some v) := by
  obtain ⟨hok, htab⟩ := Provision_csv_ok os ctx m f hdr rows hopen htype hread hlen
  refine ⟨hok, insertRows rows Redirects.empty, htab, ?_, ?_, ?_⟩
  · have := insertRows_len rows hlen hdistinct Redirects.empty (fun _ _ => rfl)
    simpa [Redirects.len, Redirects.empty] using this
  · intro r hr k v hk hv
    obtain ⟨pre, post, hsplit⟩ := List.append_of_mem hr
    have hd := hdistinct
    rw [hsplit, List.pairwise_append] at hd
    have hpost : ∀ x ∈ post, x.get? 0 ≠ some k := by
      intro x hx e
      exact (List.pairwise_cons.mp hd.2.1).1 x hx (by rw [hk, e])
    have hlen' : ∀ x ∈ post, 2 ≤ x.length := by
      intro x hx
      exact hlen x (by rw [hsplit]; simp [hx])
    rw [hsplit]
    exact insertRows_get_last k v pre post r hk hv hpost hlen' _
  · intro k v hget
    rcases insertRows_get_some k v rows _ hget with h0 | ⟨r, hr, h1, h2⟩
    · simp [Redirects.get, Redirects.empty] at h0
    · have h := get?_of_two_le (hlen r hr)
      exact ⟨r, hr, by rw [h.1, h1], by rw [h.2, h2]⟩

/-- C1, witness: the example source with separator `,` gives the table
`/old ↦ /new`, `/a ↦ /b` and nothing else. -/
theorem Provision_unique_rows_witness :
    ((Provision (oneFile exampleCSV) freshCtx (configured "csv" 44)).2 = Outcome.ok ∧
      ∃ t, (Provision (oneFile exampleCSV) freshCtx (configured "csv" 44)).1.redirects = some t ∧
        t.len = [["/old", "/new"], ["/a", "/b"]].length ∧
        (∀ r ∈ [["/old", "/new"], ["/a", "/b"]], ∀ k v,
          r.get? 0 = some k → r.get? 1 = some v → t.get k = some v) ∧
        (∀ k v, t.get k = some v →
          ∃ r ∈ [["/old", "/new"], ["/a", "/b"]], r.get? 0 = some k ∧ r.get? 1 = some v)) ∧
    (Provision (oneFile exampleCSV) freshCtx (configured "csv" 44)).1.redirects
      = some ⟨[("/old", "/new"), ("/a", "/b")]⟩ :=
  ⟨Provision_unique_rows (oneFile exampleCSV) freshCtx (configured "csv" 44) ⟨some exampleCSV⟩
    ["from", "to"] [["/old", "/new"], ["/a", "/b"]] (by decide) (by decide) rfl
    (by decide) (by decide), by decide⟩

/-- C2: last row wins. For a source that parses into a header and data rows of at least two
fields each, duplicates allowed, the table built by `Provision` maps every key `k` that is
the first field of a data row to the second field of the last such row, and holds no key
that is the first field of no data row. -/
theorem Provision_last_row_wins (os : FileSystem) (ctx : Context) (m : Middleware) (f : File)
    (hdr : List String) (rows : List (List String))
    (hopen : os m.Path = some f) (htype : m.Type_ = "csv")
    (hread : ((csv.NewReader f).withComma m.CsvSeparator).ReadAll = .ok (hdr :: rows))
    (hlen : ∀ r ∈ rows, 2 ≤ r.length) :
    (Provision os ctx m).2 = Outcome.ok ∧
      ∃ t, (Provision os ctx m).1.redirects = some t ∧
        (∀ pre row post k v, rows = pre ++ row :: post →
          row.get? 0 = some k → row.get? 1 = some v →
          (∀ r ∈ post, r.get? 0 ≠ some k) → t.get k = some v) ∧
        (∀ k, (∀ r ∈ rows, r.get? 0 ≠ some k) → t.get k = none) := by
  obtain ⟨hok, htab⟩ := Provision_csv_ok os ctx m f hdr rows hopen htype hread hlen
  refine ⟨hok, insertRows rows Redirects.empty, htab, ?_, ?_⟩
  · intro pre row post k v hsplit hk hv hpost
    have hlen' : ∀ x ∈ post, 2 ≤ x.length := by
      intro x hx
      exact hlen x (by rw [hsplit]; simp [hx])
    rw [hsplit]
    exact insertRows_get_last k v pre post row hk hv hpost hlen' _
  · intro k habs
    rw [insertRows_get_absent k rows habs hlen]
    rfl

/-- C2, witness: of three rows for `/old` the last one decides, and `/x` is absent. -/
theorem Provision_last_row_wins_witness :
    ((Provision (oneFile duplicateCSV) freshCtx (configured "csv" 44)).2 = Outcome.ok ∧
      ∃ t, (Provision (oneFile duplicateCSV) freshCtx (configured "csv" 44)).1.redirects = some t ∧
        (∀ pre row post k v,
          [["/old", "/first"], ["/a", "/b"], ["/old", "/second"], ["/old", "/third"]]
            = pre ++ row :: post →
          row.get? 0 = some k → row.get? 1 = some v →
          (∀ r ∈ post, r.get? 0 ≠ some k) → t.get k = some v) ∧
        (∀ k, (∀ r ∈ [["/old", "/first"], ["/a", "/b"], ["/old", "/second"], ["/old", "/third"]],
          r.get? 0 ≠ some k) → t.get k = none)) ∧
    (Provision (oneFile duplicateCSV) freshCtx (configured "csv" 44)).1.redirects
      = some ⟨[("/old", "/third"), ("/a", "/b")]⟩ :=
  ⟨Provision_last_row_wins (oneFile duplicateCSV) freshCtx (configured "csv" 44)
    ⟨some duplicateCSV⟩ ["from", "to"]
    [["/old", "/first"], ["/a", "/b"], ["/old", "/second"], ["/old", "/third"]]
    (by decide) (by decide) rfl (by decide), by decide⟩

/-- C6: a source with format tag `csv` that parses to no row or to a header alone makes
`Provision` succeed with a table of 0 entries, and the provisioned handler passes every
request to the next handler. -/
theorem Provision_header_only (os : FileSystem) (ctx : Context) (m : Middleware) (f : File)
    (data : List (List String))
    (hopen : os m.Path = some f) (htype : m.Type_ = "csv")
    (hread : ((csv.NewReader f).withComma m.CsvSeparator).ReadAll = .ok data)
    (hshort : data.length ≤ 1) :
    (Provision os ctx m).2 = Outcome.ok ∧
      (∃ t, (Provision os ctx m).1.redirects = some t ∧ t.len = 0) ∧
      ∀ (parse : http.UrlParse) (w : http.ResponseWriter) (r : http.Request) (next : Handler),
        ServeHTTP parse (Provision os ctx m).1 w r next = ⟨(next w r).1, (next w r).2, [(w, r)]⟩ := by
  have hload : loadRows 0 data Redirects.empty = (Redirects.empty, none) := by
    match data, hshort with
    | [], _ => rfl
    | [_], _ => rfl
  have htab : (Provision os ctx m).1.redirects = some Redirects.empty := by
    simp [Provision, hopen, htype, hread, hload]
  refine ⟨?_, ⟨Redirects.empty, htab, rfl⟩, ?_⟩
  · simp [Provision, hopen, htype, hread, hload]
  · intro parse w r next
    simp [ServeHTTP, Middleware.lookup, htab, Redirects.get, Redirects.empty]

/-- C6, witness: an empty source and a source holding only a header of three fields. -/
theorem Provision_header_only_witness :
    ((Provision (oneFile "") freshCtx (configured "csv" 44)).2 = Outcome.ok ∧
      (∃ t, (Provision (oneFile "") freshCtx (configured "csv" 44)).1.redirects = some t ∧
        t.len = 0) ∧
      ∀ (parse : http.UrlParse) (w : http.ResponseWriter) (r : http.Request) (next : Handler),
        ServeHTTP parse (Provision (oneFile "") freshCtx (configured "csv" 44)).1 w r next
          = ⟨(next w r).1, (next w r).2, [(w, r)]⟩) ∧
    ((Provision (oneFile "from,to,note\n") freshCtx (configured "csv" 44)).2 = Outcome.ok ∧
      (∃ t, (Provision (oneFile "from,to,note\n") freshCtx (configured "csv" 44)).1.redirects
        = some t ∧ t.len = 0) ∧
      ∀ (parse : http.UrlParse) (w : http.ResponseWriter) (r : http.Request) (next : Handler),
        ServeHTTP parse (Provision (oneFile "from,to,note\n") freshCtx (configured "csv" 44)).1
          w r next = ⟨(next w r).1, (next w r).2, [(w, r)]⟩) :=
  ⟨Provision_header_only (oneFile "") freshCtx (configured "csv" 44) ⟨some ""⟩ []
      (by decide) (by decide) rfl (by decide),
    Provision_header_only (oneFile "from,to,note\n") freshCtx (configured "csv" 44)
      ⟨some "from,to,note\n"⟩ [["from", "to", "note"]] (by decide) (by decide) rfl (by decide)⟩

/-! ## Failures of `Provision` -/

/-- C7: with a format tag other than the string `csv` and a source that opens, `Provision`
returns the error `unsupported file type given` followed by the tag, and the table of the
handler is the one it had before the call. -/
theorem Provision_unsupported_type (os : FileSystem) (ctx : Context) (m : Middleware) (f : File)
    (hopen : os m.Path = some f) (htype : m.Type_ ≠ "csv") :
    (Provision os ctx m).2 = Outcome.err ("unsupported file type given " ++ m.Type_) ∧
      (Provision os ctx m).1.redirects = m.redirects := by
  simp [Provision, hopen, htype]

/-- C7, witness: the tags `CSV` and the empty tag on the example source leave the table of a
new handler nil. -/
theorem Provision_unsupported_type_witness :
    ((Provision (oneFile exampleCSV) freshCtx (configured "CSV" 44)).2
        = Outcome.err ("unsupported file type given " ++ (configured "CSV" 44).Type_) ∧
      (Provision (oneFile exampleCSV) freshCtx (configured "CSV" 44)).1.redirects
        = (configured "CSV" 44).redirects) ∧
    ((Provision (oneFile exampleCSV) freshCtx (configured "" 44)).2
        = Outcome.err ("unsupported file type given " ++ (configured "" 44).Type_) ∧
      (Provision (oneFile exampleCSV) freshCtx (configured "" 44)).1.redirects
        = (configured "" 44).redirects) ∧
    (configured "CSV" 44).redirects = none :=
  ⟨Provision_unsupported_type (oneFile exampleCSV) freshCtx (configured "CSV" 44)
      ⟨some exampleCSV⟩ (by decide) (by decide),
    Provision_unsupported_type (oneFile exampleCSV) freshCtx (configured "" 44)
      ⟨some exampleCSV⟩ (by decide) (by decide), rfl⟩

/-- C8: when the source cannot be opened, `Provision` returns the error `failed reading file`
followed by the path, whatever the format tag and the separator, and the table of the handler
is the one it had before the call. -/
theorem Provision_open_fails (os : FileSystem) (ctx : Context) (m : Middleware)
    (hopen : os m.Path = none) :
    (Provision os ctx m).2 = Outcome.err ("failed reading file " ++ m.Path) ∧
      (Provision os ctx m).1.redirects = m.redirects := by
  simp [Provision, hopen]

/-- C8, witness: a handler for the missing file `gone.csv`, already holding a table. -/
theorem Provision_open_fails_witness :
    (Provision (oneFile exampleCSV) freshCtx
        ⟨"gone.csv", "csv", 44, some ⟨[("/k", "/v")]⟩, none⟩).2
      = Outcome.err ("failed reading file " ++ "gone.csv") ∧
    (Provision (oneFile exampleCSV) freshCtx
        ⟨"gone.csv", "csv", 44, some ⟨[("/k", "/v")]⟩, none⟩).1.redirects
      = some ⟨[("/k", "/v")]⟩ :=
  Provision_open_fails (oneFile exampleCSV) freshCtx
    ⟨"gone.csv", "csv", 44, some ⟨[("/k", "/v")]⟩, none⟩ (by decide)

/-! ## Request handling -/

/-- C4: when the request path is string-equal to no key of the table, `ServeHTTP` calls the
next handler once, with the response writer and the request it was given, the response
writer afterwards is the one the next handler left, and the value returned is the one the
next handler returned. -/
theorem ServeHTTP_miss (parse : http.UrlParse) (m : Middleware)
    (w : http.ResponseWriter) (r : http.Request) (next : Handler)
    (hmiss : ∀ t, m.redirects = some t → ∀ kv ∈ t.entries, kv.1 ≠ r.Path) :
    (ServeHTTP parse m w r next).nextCalls = [(w, r)] ∧
      (ServeHTTP parse m w r next).w = (next w r).1 ∧
      (ServeHTTP parse m w r next).ret = (next w r).2 := by
  have hnone : m.lookup r.Path = none := by
    unfold Middleware.lookup
    cases htab : m.redirects with
    | none => rfl
    | some t =>
      show t.entries.lookup r.Path = none
      rw [List.lookup_eq_none_iff]
      intro kv hkv
      have := hmiss t htab kv hkv
      simpa using Ne.symm this
  simp [ServeHTTP, hnone]

/-- C4, witness: with only `/foo` in the table a request for `/foo/` is passed on, and with
only `/foo/` in the table a request for `/foo` is passed on. -/
theorem ServeHTTP_miss_witness :
    ((ServeHTTP parsePath (withTable [("/foo", "/bar")]) ⟨[], []⟩
        ⟨"GET", "/foo/", "/foo/"⟩ notFound).nextCalls = [(⟨[], []⟩, ⟨"GET", "/foo/", "/foo/"⟩)] ∧
      (ServeHTTP parsePath (withTable [("/foo", "/bar")]) ⟨[], []⟩
        ⟨"GET", "/foo/", "/foo/"⟩ notFound).w = (notFound ⟨[], []⟩ ⟨"GET", "/foo/", "/foo/"⟩).1 ∧
      (ServeHTTP parsePath (withTable [("/foo", "/bar")]) ⟨[], []⟩
        ⟨"GET", "/foo/", "/foo/"⟩ notFound).ret = (notFound ⟨[], []⟩ ⟨"GET", "/foo/", "/foo/"⟩).2) ∧
    ((ServeHTTP parsePath (withTable [("/foo/", "/bar")]) ⟨[], []⟩
        ⟨"GET", "/foo", "/foo"⟩ notFound).nextCalls = [(⟨[], []⟩, ⟨"GET", "/foo", "/foo"⟩)] ∧
      (ServeHTTP parsePath (withTable [("/foo/", "/bar")]) ⟨[], []⟩
        ⟨"GET", "/foo", "/foo"⟩ notFound).w = (notFound ⟨[], []⟩ ⟨"GET", "/foo", "/foo"⟩).1 ∧
      (ServeHTTP parsePath (withTable [("/foo/", "/bar")]) ⟨[], []⟩
        ⟨"GET", "/foo", "/foo"⟩ notFound).ret = (notFound ⟨[], []⟩ ⟨"GET", "/foo", "/foo"⟩).2) :=
  ⟨ServeHTTP_miss parsePath (withTable [("/foo", "/bar")]) ⟨[], []⟩ ⟨"GET", "/foo/", "/foo/"⟩
      notFound (fun t ht => by cases ht; decide),
    ServeHTTP_miss parsePath (withTable [("/foo/", "/bar")]) ⟨[], []⟩ ⟨"GET", "/foo", "/foo"⟩
      notFound (fun t ht => by cases ht; decide)⟩

/-! ## Lemmas on `path.Clean` -/

theorem takeWhile_dropWhile_until (c : Char) (s r : List Char) (hs : c ∉ s)
    (hr : r = [] ∨ r.head? = some c) :
    ((s ++ r).takeWhile fun x => x != c) = s ∧ ((s ++ r).dropWhile fun x => x != c) = r := by
  induction s with
  | nil =>
    rcases hr with h | h
    · subst h
      exact ⟨rfl, rfl⟩
    · cases r with
      | nil => exact ⟨rfl, rfl⟩
      | cons a t =>
        simp only [List.head?_cons, Option.some.injEq] at h
        subst h
        simp
  | cons a t ih =>
    have ha : (a != c) = true := by
      have : a ≠ c := fun e => hs (by rw [e]; exact List.mem_cons_self _ _)
      simpa using this
    have ht := ih (fun h => hs (List.mem_cons_of_mem _ h))
    simp only [List.cons_append, List.takeWhile_cons, List.dropWhile_cons, ha, if_true, ht.1, ht.2,
      and_self]

theorem cleanLoop_elem (fuel : Nat) (s r out : List Char) (dotdot : Nat) (hs : IsElem s)
    (hr : r = [] ∨ r.head? = some '/') :
    http.cleanLoop true (fuel + 1) (s ++ r) out dotdot
      = http.cleanLoop true fuel r ((if out.length ≠ 1 then out ++ ['/'] else out) ++ s) dotdot := by
  obtain ⟨hne, hslash, _, hdot, hdotdot⟩ := hs
  cases s with
  | nil => exact absurd rfl hne
  | cons c s' =>
    have hc : c ≠ '/' := fun e => hslash (by rw [e]; exact List.mem_cons_self _ _)
    have hs' : '/' ∉ s' := fun h => hslash (List.mem_cons_of_mem _ h)
    have h2 : ¬(c = '.' ∧ (s' ++ r = [] ∨ (s' ++ r).head? = some '/')) := by
      rintro ⟨e, h⟩
      cases s' with
      | nil => exact hdot (by rw [e])
      | cons c2 s'' =>
        rcases h with h | h
        · simp at h
        · simp only [List.cons_append, List.head?_cons, Option.some.injEq] at h
          exact hs' (by rw [h]; exact List.mem_cons_self _ _)
    have h3 : ¬(c = '.' ∧ (s' ++ r).head? = some '.' ∧
        ((s' ++ r).tail = [] ∨ (s' ++ r).tail.head? = some '/')) := by
      rintro ⟨e, e2, h⟩
      cases s' with
      | nil => exact hdot (by rw [e])
      | cons c2 s'' =>
        simp only [List.cons_append, List.head?_cons, Option.some.injEq] at e2
        cases s'' with
        | nil => exact hdotdot (by rw [e, e2])
        | cons c3 s3 =>
          rcases h with h | h
          · simp at h
          · simp only [List.cons_append, List.tail_cons, List.head?_cons,
              Option.some.injEq] at h
            exact hs' (by rw [h]; simp)
    have htd := takeWhile_dropWhile_until '/' (c :: s') r hslash hr
    have hout : ((true = true ∧ out.length ≠ 1) ∨ ((!true) = true ∧ out.length ≠ 0))
        ↔ out.length ≠ 1 := by simp
    simp only [List.cons_append] at htd ⊢
    rw [http.cleanLoop]
    simp only [hc, if_false, h2, h3, htd.1, htd.2]
    simp

theorem cleanLoop_joinSlash (segs : List (List Char)) (hsegs : ∀ s ∈ segs, IsElem s)
    (hne : segs ≠ []) (tr : List Char) (htr : tr = [] ∨ tr = ['/']) (fuel : Nat)
    (out : List Char) (dotdot : Nat) (hfuel : (joinSlash segs ++ tr).length < fuel) :
    http.cleanLoop true fuel (joinSlash segs ++ tr) out dotdot
      = (if out.length ≠ 1 then out ++ ['/'] else out) ++ joinSlash segs := by
  induction segs generalizing fuel out with
  | nil => exact absurd rfl hne
  | cons s rest ih =>
    have hs := hsegs s (List.mem_cons_self _ _)
    cases rest with
    | nil =>
      simp only [joinSlash] at hfuel ⊢
      obtain ⟨n, rfl⟩ : ∃ n, fuel = n + 1 := ⟨fuel - 1, by omega⟩
      rw [cleanLoop_elem n s tr out dotdot hs (by
        rcases htr with h | h
        · exact Or.inl h
        · exact Or.inr (by rw [h]; rfl))]
      rcases htr with h | h
      · subst h
        cases n <;> simp [http.cleanLoop]
      · subst h
        cases n with
        | zero => simp [http.cleanLoop]
        | succ k =>
          rw [http.cleanLoop]
          simp only [if_true]
          cases k <;> simp [http.cleanLoop]
    | cons t ss =>
      simp only [joinSlash, List.append_assoc, List.cons_append, List.length_append,
        List.length_cons] at hfuel ⊢
      have hspos : 0 < s.length := List.length_pos.mpr hs.1
      obtain ⟨n, rfl⟩ : ∃ n, fuel = n + 2 := ⟨fuel - 2, by omega⟩
      rw [cleanLoop_elem (n + 1) s ('/' :: (joinSlash (t :: ss) ++ tr)) out dotdot hs
        (Or.inr rfl)]
      rw [http.cleanLoop]
      simp only [if_true]
      rw [ih (fun x hx => hsegs x (List.mem_cons_of_mem _ hx)) (List.cons_ne_nil _ _) n _
        (by simp only [List.length_append]; omega)]
      have hlen : ((if out.length ≠ 1 then out ++ ['/'] else out) ++ s).length ≠ 1 := by
        simp only [List.length_append]
        split
        · simp only [List.length_append, List.length_singleton]
          omega
        · rename_i h1
          have : out.length = 1 := by
            by_contra hcon
            exact h1 hcon
          omega
      simp only [hlen, ne_eq, not_false_eq_true, if_true, List.append_assoc, List.cons_append,
        List.nil_append]

theorem Clean_cleanPath (segs : List (List Char)) (hsegs : ∀ s ∈ segs, IsElem s)
    (tr : List Char) (htr : tr = [] ∨ (tr = ['/'] ∧ segs ≠ [])) :
    http.Clean ('/' :: joinSlash segs ++ tr) = '/' :: joinSlash segs := by
  unfold http.Clean
  simp only [List.cons_append, List.cons_ne_nil, if_false, List.head?_cons, List.tail_cons,
    decide_True, if_true]
  by_cases hne : segs = []
  · subst hne
    have : tr = [] := by
      rcases htr with h | ⟨_, h⟩
      · exact h
      · exact absurd rfl h
    subst this
    simp [joinSlash, http.cleanLoop]
  · rw [cleanLoop_joinSlash segs hsegs hne tr (htr.imp id And.left) _ ['/'] 1
      (by simp only [List.length_cons]; omega)]
    simp

/-! ## Lemmas on `http.Redirect` -/

theorem joinSlash_no_query (segs : List (List Char)) (hsegs : ∀ s ∈ segs, IsElem s) :
    '?' ∉ joinSlash segs := by
  induction segs with
  | nil => simp [joinSlash]
  | cons s rest ih =>
    have hs := (hsegs s (List.mem_cons_self _ _)).2.2.1
    have hrest := ih (fun x hx => hsegs x (List.mem_cons_of_mem _ hx))
    cases rest with
    | nil => simpa [joinSlash] using hs
    | cons t ss =>
      simp only [joinSlash, List.mem_append, List.mem_cons, not_or]
      exact ⟨hs, by decide, hrest⟩

theorem joinSlash_last (segs : List (List Char)) (hsegs : ∀ s ∈ segs, IsElem s)
    (hne : segs ≠ []) : ∃ l c, joinSlash segs = l ++ [c] ∧ c ≠ '/' := by
  induction segs with
  | nil => exact absurd rfl hne
  | cons s rest ih =>
    have hs := hsegs s (List.mem_cons_self _ _)
    cases rest with
    | nil =>
      refine ⟨s.dropLast, s.getLast hs.1, ?_, ?_⟩
      · simp only [joinSlash]
        exact (List.dropLast_append_getLast hs.1).symm
      · intro e
        exact hs.2.1 (e ▸ List.getLast_mem hs.1)
    | cons t ss =>
      obtain ⟨l, c, hl, hc⟩ := ih (fun x hx => hsegs x (List.mem_cons_of_mem _ hx))
        (List.cons_ne_nil _ _)
      refine ⟨s ++ '/' :: l, c, ?_, hc⟩
      simp only [joinSlash, hl, List.append_assoc, List.cons_append]

theorem cleanKeepingSlash_append (path query : List Char) (hp : '?' ∉ path)
    (hq : query = [] ∨ query.head? = some '?') :
    http.cleanKeepingSlash (path ++ query)
      = (if path.getLast? = some '/' ∧ (http.Clean path).getLast? ≠ some '/'
          then http.Clean path ++ ['/'] else http.Clean path) ++ query := by
  have htd := takeWhile_dropWhile_until '?' path query hp hq
  unfold http.cleanKeepingSlash
  simp only [htd.1, htd.2, decide_eq_true_eq]

theorem cleanTarget_toList (segs : List (List Char)) (trailing : Bool) (query : List Char) :
    (cleanTarget segs trailing query).toList
      = ('/' :: joinSlash segs ++ (if trailing = true ∧ segs ≠ [] then ['/'] else [])) ++ query :=
  rfl

theorem cleanKeepingSlash_cleanTarget (segs : List (List Char)) (hsegs : ∀ s ∈ segs, IsElem s)
    (trailing : Bool) (query : List Char) (hq : query = [] ∨ query.head? = some '?') :
    http.cleanKeepingSlash (cleanTarget segs trailing query).toList
      = (cleanTarget segs trailing query).toList := by
  have hnoq : ∀ tr : List Char, (tr = [] ∨ tr = ['/']) → '?' ∉ '/' :: joinSlash segs ++ tr := by
    intro tr htr
    have := joinSlash_no_query segs hsegs
    rcases htr with h | h <;> subst h <;> simp [this]
  rw [cleanTarget_toList]
  by_cases hne : segs = []
  · subst hne
    have hif : (if trailing = true ∧ ([] : List (List Char)) ≠ [] then ['/'] else [])
        = ([] : List Char) := by simp
    rw [hif, cleanKeepingSlash_append _ _ (hnoq [] (Or.inl rfl)) hq]
    simp [joinSlash, http.Clean, http.cleanLoop]
  · obtain ⟨l, c, hl, hc⟩ := joinSlash_last segs hsegs hne
    have hlast : ('/' :: joinSlash segs).getLast? = some c := by
      rw [hl, ← List.cons_append, List.getLast?_append, List.getLast?_singleton]
      rfl
    have hcne : some c ≠ some '/' := fun e => hc (Option.some.inj e)
    cases trailing with
    | false =>
      have hif : (if false = true ∧ segs ≠ [] then ['/'] else []) = ([] : List Char) := by simp
      have hclean := Clean_cleanPath segs hsegs [] (Or.inl rfl)
      rw [hif, cleanKeepingSlash_append _ _ (hnoq [] (Or.inl rfl)) hq, hclean]
      simp only [List.append_nil, hlast]
      rw [if_neg (fun h => hcne h.1)]
    | true =>
      have hif : (if true = true ∧ segs ≠ [] then ['/'] else []) = ['/'] := by simp [hne]
      have hclean := Clean_cleanPath segs hsegs ['/'] (Or.inr ⟨rfl, hne⟩)
      have hlast2 : ('/' :: joinSlash segs ++ ['/']).getLast? = some '/' := by
        rw [List.getLast?_append, List.getLast?_singleton]
        rfl
      rw [hif, cleanKeepingSlash_append _ _ (hnoq ['/'] (Or.inr rfl)) hq, hclean, hlast2, hlast]
      rw [if_pos ⟨rfl, hcne⟩]

theorem redirectURL_cleanTarget (parse : http.UrlParse) (escapedPath : String)
    (segs : List (List Char)) (hsegs : ∀ s ∈ segs, IsElem s)
    (trailing : Bool) (query : List Char) (hq : query = [] ∨ query.head? = some '?') :
    http.redirectURL parse escapedPath (cleanTarget segs trailing query)
      = cleanTarget segs trailing query := by
  unfold http.redirectURL
  split
  · rfl
  · split
    · have habs : ∀ old : List Char,
          http.makeAbsolute old (cleanTarget segs trailing query).toList
            = (cleanTarget segs trailing query).toList := by
        intro old
        simp [http.makeAbsolute, cleanTarget]
      simp only [habs, cleanKeepingSlash_cleanTarget segs hsegs trailing query hq]
      rfl
    · rfl

theorem hexDigit_isASCII : ∀ n, n < 16 → (http.hexDigit n).toNat < 0x80 := by
  decide

theorem utf8Bytes_lt (c : Char) : ∀ b ∈ http.utf8Bytes c, b < 256 := by
  have hv : c.toNat < 0x110000 := by
    have := c.valid
    simp only [UInt32.isValidChar, Nat.isValidChar] at this
    show c.val.toNat < 0x110000
    omega
  intro b hb
  unfold http.utf8Bytes at hb
  simp only [] at hb
  split at hb
  · simp only [List.mem_singleton] at hb
    omega
  · split at hb
    · simp only [List.mem_cons, List.mem_singleton, List.not_mem_nil, or_false] at hb
      omega
    · split at hb
      · simp only [List.mem_cons, List.mem_singleton, List.not_mem_nil, or_false] at hb
        omega
      · simp only [List.mem_cons, List.mem_singleton, List.not_mem_nil, or_false] at hb
        omega

theorem hexEscapeNonASCII_isASCII (s : String) :
    ∀ c ∈ (http.hexEscapeNonASCII s).toList, c.toNat < 0x80 := by
  intro c hc
  unfold http.hexEscapeNonASCII at hc
  simp only [String.toList, List.mem_flatMap] at hc
  obtain ⟨a, _, ha⟩ := hc
  split at ha
  · rename_i hlt
    rw [List.mem_singleton] at ha
    rw [ha]
    exact hlt
  · rw [List.mem_flatMap] at ha
    obtain ⟨b, hb, hcb⟩ := ha
    have hb256 := utf8Bytes_lt a b hb
    simp only [List.mem_cons, List.mem_singleton, List.not_mem_nil, or_false] at hcb
    rcases hcb with h | h | h
    · rw [h]
      decide
    · rw [h]
      exact hexDigit_isASCII _ (by omega)
    · rw [h]
      exact hexDigit_isASCII _ (by omega)

theorem headerGet_headerSet_self (key value : String) (h : List (String × List String)) :
    http.headerGet (http.headerSet key value h) key = some [value] := by
  induction h with
  | nil => simp [http.headerSet, http.headerGet, List.lookup]
  | cons p rest ih =>
    obtain ⟨k, vs⟩ := p
    by_cases hk : k = key
    · simp [http.headerSet, http.headerGet, hk, List.lookup]
    · have hb : (key == k) = false := by simpa using Ne.symm hk
      simpa [http.headerSet, http.headerGet, hk, List.lookup, hb] using ih

theorem headerGet_headerSet_ne (key value a : String) (hne : a ≠ key)
    (h : List (String × List String)) :
    http.headerGet (http.headerSet key value h) a = http.headerGet h a := by
  induction h with
  | nil =>
    have hb : (a == key) = false := by simpa using hne
    simp [http.headerSet, http.headerGet, List.lookup, hb]
  | cons p rest ih =>
    obtain ⟨k, vs⟩ := p
    by_cases hk : k = key
    · subst hk
      have hb : (a == k) = false := by simpa using hne
      simp [http.headerSet, http.headerGet, List.lookup, hb]
    · by_cases ha : a = k
      · simp [http.headerSet, http.headerGet, hk, List.lookup, ha]
      · have hb : (a == k) = false := by simpa using ha
        simpa [http.headerSet, http.headerGet, hk, List.lookup, hb] using ih

theorem Redirect_location (parse : http.UrlParse) (w : http.ResponseWriter) (r : http.Request)
    (url : String) (code : Nat) :
    http.headerGet (http.Redirect parse w r url code).Header "Location"
      = some [http.hexEscapeNonASCII (http.redirectURL parse r.EscapedPath url)] := by
  unfold http.Redirect
  simp only []
  split
  · rw [headerGet_headerSet_ne _ _ _ (by decide), headerGet_headerSet_self]
  · rw [headerGet_headerSet_self]

theorem Redirect_calls (parse : http.UrlParse) (w : http.ResponseWriter) (r : http.Request)
    (url : String) (code : Nat) :
    ∃ rest, (http.Redirect parse w r url code).calls
        = w.calls ++ http.WriterCall.WriteHeader code :: rest ∧
      ∀ c ∈ rest, ∃ data, c = http.WriterCall.Write data := by
  unfold http.Redirect
  simp only []
  split
  · exact ⟨[http.WriterCall.Write _], List.append_assoc _ _ _,
      fun c hc => ⟨_, List.mem_singleton.mp hc⟩⟩
  · exact ⟨[], by simp, by simp⟩

theorem hexEscapeNonASCII_ascii (s : String) (h : ∀ c ∈ s.toList, c.toNat < 0x80) :
    http.hexEscapeNonASCII s = s := by
  have key : ∀ l : List Char, (∀ c ∈ l, c.toNat < 0x80) →
      (l.flatMap fun c => if c.toNat < 0x80 then [c]
        else (http.utf8Bytes c).flatMap fun b =>
          ['%', http.hexDigit (b / 16), http.hexDigit (b % 16)]) = l := by
    intro l hl
    induction l with
    | nil => rfl
    | cons c cs ih =>
      have hc : c.toNat < 0x80 := hl c (List.mem_cons_self _ _)
      have hcs := ih (fun x hx => hl x (List.mem_cons_of_mem _ hx))
      simp only [List.flatMap_cons, hc, if_true, hcs]
      rfl
  unfold http.hexEscapeNonASCII
  rw [key s.toList h]
  rfl

theorem ServeHTTP_hit_eq (parse : http.UrlParse) (m : Middleware) (w : http.ResponseWriter)
    (r : http.Request) (next : Handler) (dest : String) (hhit : m.lookup r.Path = some dest) :
    ServeHTTP parse m w r next = ⟨http.Redirect parse w r dest 301, Outcome.ok, []⟩ := by
  simp [ServeHTTP, hhit, http.StatusMovedPermanently]

theorem ServeHTTP_hit_location (parse : http.UrlParse) (m : Middleware)
    (w : http.ResponseWriter) (r : http.Request) (next : Handler) (dest : String)
    (hhit : m.lookup r.Path = some dest) :
    http.headerGet (ServeHTTP parse m w r next).w.Header "Location"
      = some [http.hexEscapeNonASCII (http.redirectURL parse r.EscapedPath dest)] := by
  rw [ServeHTTP_hit_eq parse m w r next dest hhit]
  exact Redirect_location parse w r dest 301

/-! ## Redirecting -/

/-- C3, counterexample: with `/old ↦ /é` in the table, a request for `/old` gets a Location
header that is not `/é`, whatever `url.Parse` makes of the target: the header holds ASCII
only, here `/%c3%a9`. -/
theorem ServeHTTP_location_not_exact :
    ¬ ∃ parse : http.UrlParse,
      http.headerGet (ServeHTTP parse accented ⟨[], []⟩ ⟨"GET", "/old", "/old"⟩ notFound).w.Header
        "Location" = some ["/é"] := by
  rintro ⟨parse, h⟩
  rw [ServeHTTP_hit_location parse accented ⟨[], []⟩ ⟨"GET", "/old", "/old"⟩ notFound "/é"
    (by decide)] at h
  have hascii := hexEscapeNonASCII_isASCII (http.redirectURL parse "/old" "/é")
  rw [Option.some.inj h |> List.cons.inj |>.1] at hascii
  exact absurd (hascii 'é' (by decide)) (by decide)

/-- C3, amended: when the request path is a key of the table with value `dest`, `ServeHTTP`
does not call the next handler, returns nil, calls `WriteHeader` once, with 301, besides at
most writing a body, and sets the Location header to `dest` as `http.Redirect` rewrites it.
The header holds ASCII only. When `url.Parse` rejects `dest` or finds a scheme or a host in
it, the header is `dest` with every byte outside ASCII percent-escaped. When `url.Parse`
finds neither, `dest` is first made absolute against the directory of the request's escaped
path and its part before `?` cleaned by `path.Clean`, a trailing slash kept. The header is
`dest` itself when `dest` is an ASCII absolute path in clean form. -/
theorem ServeHTTP_hit (parse : http.UrlParse) (m : Middleware) (w : http.ResponseWriter)
    (r : http.Request) (next : Handler) (dest : String) (hhit : m.lookup r.Path = some dest) :
    (ServeHTTP parse m w r next).nextCalls = [] ∧
      (ServeHTTP parse m w r next).ret = Outcome.ok ∧
      (∃ rest, (ServeHTTP parse m w r next).w.calls
          = w.calls ++ http.WriterCall.WriteHeader 301 :: rest ∧
        ∀ c ∈ rest, ∃ data, c = http.WriterCall.Write data) ∧
      ∃ loc, http.headerGet (ServeHTTP parse m w r next).w.Header "Location" = some [loc] ∧
        (∀ c ∈ loc.toList, c.toNat < 0x80) ∧
        ((∀ u, parse dest = some u → ¬(u.Scheme = "" ∧ u.Host = "")) →
          loc = http.hexEscapeNonASCII dest) ∧
        ((∃ u, parse dest = some u ∧ u.Scheme = "" ∧ u.Host = "") →
          loc = http.hexEscapeNonASCII (String.mk (http.cleanKeepingSlash
            (http.makeAbsolute (if r.EscapedPath = "" then ['/'] else r.EscapedPath.toList)
              dest.toList)))) ∧
        (∀ segs trailing query, (∀ s ∈ segs, IsElem s) →
          (query = [] ∨ query.head? = some '?') → dest = cleanTarget segs trailing query →
          (∀ c ∈ dest.toList, c.toNat < 0x80) → loc = dest) := by
  have hloc := ServeHTTP_hit_location parse m w r next dest hhit
  rw [ServeHTTP_hit_eq parse m w r next dest hhit] at hloc ⊢
  refine ⟨rfl, rfl, Redirect_calls parse w r dest 301, _, hloc,
    hexEscapeNonASCII_isASCII _, ?_, ?_, ?_⟩
  · intro hp
    unfold http.redirectURL
    split
    · rfl
    · rename_i u hu
      rw [if_neg (hp u hu)]
  · rintro ⟨u, hu, hs, hh⟩
    unfold http.redirectURL
    rw [hu]
    simp only [hs, hh, and_self, if_true]
    by_cases he : r.EscapedPath = ""
    · simp only [he, if_true]
      rfl
    · simp only [he, if_false]
  · intro segs trailing query hsegs hq hdest hascii
    rw [hdest, redirectURL_cleanTarget parse r.EscapedPath segs hsegs trailing query hq,
      ← hdest, hexEscapeNonASCII_ascii dest hascii]

/-- C3, witness: the table `/a b/old ↦ new`, `/old ↦ /new`, `/x ↦ /a//b/../c/` and a GET
request for `/a b/old`, escaped `/a%20b/old`: one `WriteHeader(301)`, the next handler not
called, and Location `/a%20b/new`. Requests for `/old` and `/x` get `/new` and `/a/c/`. -/
theorem ServeHTTP_hit_witness :
    (ServeHTTP parsePath mixedTable ⟨[], []⟩ ⟨"GET", "/a b/old", "/a%20b/old"⟩
        notFound).nextCalls = [] ∧
      (ServeHTTP parsePath mixedTable ⟨[], []⟩ ⟨"GET", "/a b/old", "/a%20b/old"⟩
        notFound).ret = Outcome.ok ∧
      (∃ rest, (ServeHTTP parsePath mixedTable ⟨[], []⟩ ⟨"GET", "/a b/old", "/a%20b/old"⟩
          notFound).w.calls = [] ++ http.WriterCall.WriteHeader 301 :: rest ∧
        ∀ c ∈ rest, ∃ data, c = http.WriterCall.Write data) ∧
      http.headerGet (ServeHTTP parsePath mixedTable ⟨[], []⟩
        ⟨"GET", "/a b/old", "/a%20b/old"⟩ notFound).w.Header "Location"
          = some ["/a%20b/new"] ∧
      http.headerGet (ServeHTTP parsePath mixedTable ⟨[], []⟩ ⟨"GET", "/old", "/old"⟩
        notFound).w.Header "Location" = some ["/new"] ∧
      http.headerGet (ServeHTTP parsePath mixedTable ⟨[], []⟩ ⟨"GET", "/x", "/x"⟩
        notFound).w.Header "Location" = some ["/a/c/"] := by
  have h1 := ServeHTTP_hit parsePath mixedTable ⟨[], []⟩ ⟨"GET", "/a b/old", "/a%20b/old"⟩
    notFound "new" (by decide)
  have h2 := ServeHTTP_hit parsePath mixedTable ⟨[], []⟩ ⟨"GET", "/old", "/old"⟩
    notFound "/new" (by decide)
  have h3 := ServeHTTP_hit parsePath mixedTable ⟨[], []⟩ ⟨"GET", "/x", "/x"⟩
    notFound "/a//b/../c/" (by decide)
  obtain ⟨loc1, hl1, _, _, hrel1, _⟩ := h1.2.2.2
  obtain ⟨loc2, hl2, _, _, _, hexact2⟩ := h2.2.2.2
  obtain ⟨loc3, hl3, _, _, hrel3, _⟩ := h3.2.2.2
  refine ⟨h1.1, h1.2.1, h1.2.2.1, ?_, ?_, ?_⟩
  · rw [hl1, hrel1 ⟨⟨"", ""⟩, rfl, rfl, rfl⟩]
    decide
  · rw [hl2, hexact2 [['n', 'e', 'w']] false [] (by decide) (Or.inl rfl) (by decide)
      (by decide)]
  · rw [hl3, hrel3 ⟨⟨"", ""⟩, rfl, rfl, rfl⟩]
    decide

/-! ## Where the code leaves the specification -/

theorem loadRows_short_row (rows : List (List String)) (i : Nat) (t : Redirects)
    (h : ∃ r ∈ rows, r.length < 2) :
    ∃ t' msg, loadRows (i + 1) rows t = (t', some msg) := by
  induction rows generalizing i t with
  | nil => simp at h
  | cons r rs ih =>
    rw [loadRows]
    simp only [Nat.add_one_ne_zero, if_false]
    match r, h with
    | [], _ => exact ⟨_, _, rfl⟩
    | [_], _ => exact ⟨_, _, rfl⟩
    | a :: b :: l, h =>
      have h' : ∃ x ∈ rs, x.length < 2 := by
        obtain ⟨x, hx, hlt⟩ := h
        rcases List.mem_cons.mp hx with e | hx'
        · subst e
          simp only [List.length_cons] at hlt
          omega
        · exact ⟨x, hx', hlt⟩
      simpa using ih (i + 1) (t.set a b) h'

/-- Every source that parses into a header and data rows one of which has fewer than two
fields makes `Provision` panic. -/
theorem Provision_short_row (os : FileSystem) (ctx : Context) (m : Middleware) (f : File)
    (hdr : List String) (rows : List (List String))
    (hopen : os m.Path = some f) (htype : m.Type_ = "csv")
    (hread : ((csv.NewReader f).withComma m.CsvSeparator).ReadAll = .ok (hdr :: rows))
    (hshort : ∃ r ∈ rows, r.length < 2) :
    ∃ msg, (Provision os ctx m).2 = Outcome.panic msg := by
  obtain ⟨t', msg, hload⟩ := loadRows_short_row rows 0 Redirects.empty hshort
  have hload0 : loadRows 0 (hdr :: rows) Redirects.empty = (t', some msg) := by
    rw [loadRows]
    simpa using hload
  exact ⟨msg, by simp [Provision, hopen, htype, hread, hload0]⟩

/-- C5, at the failing input: under the separator `;` every row of the example source is a
single field, the source parses, and `Provision` panics on the first data row instead of
returning the error `failed reading file redirects.csv as CSV`. -/
theorem Provision_semicolon_panics :
    ((csv.NewReader ⟨some exampleCSV⟩).withComma 59).ReadAll
        = .ok [["from,to"], ["/old,/new"], ["/a,/b"]] ∧
      (Provision (oneFile exampleCSV) freshCtx (configured "csv" 59)).2
        = Outcome.panic "runtime error: index out of range [1] with length 1" ∧
      (Provision (oneFile exampleCSV) freshCtx (configured "csv" 59)).2
        ≠ Outcome.err "failed reading file redirects.csv as CSV" :=
  ⟨rfl, by decide, by decide⟩

/-- A separator left at the zero value is no valid delimiter: `Provision` returns the CSV
error for every source that opens, and builds no table. -/
theorem Provision_zero_separator (os : FileSystem) (ctx : Context) (m : Middleware) (f : File)
    (hopen : os m.Path = some f) (htype : m.Type_ = "csv") (hsep : m.CsvSeparator = 0) :
    (Provision os ctx m).2 = Outcome.err ("failed reading file " ++ m.Path ++ " as CSV") ∧
      (Provision os ctx m).1.redirects = m.redirects := by
  have hread : ((csv.NewReader f).withComma m.CsvSeparator).ReadAll
      = .error csv.Err.errInvalidDelim := by
    rw [hsep]
    rfl
  simp [Provision, hopen, htype, hread]

/-- C9, at the failing input: with the separator left at its zero value, as the JSON
configuration without `csv_separator` leaves it, `Provision` fails on the example source with
`failed reading file redirects.csv as CSV` and builds no table, while the separator `,`
gives the table of the example. -/
theorem Provision_unset_separator_fails :
    (Provision (oneFile exampleCSV) freshCtx (configured "csv" 0)).2
        = Outcome.err "failed reading file redirects.csv as CSV" ∧
      (Provision (oneFile exampleCSV) freshCtx (configured "csv" 0)).1.redirects = none ∧
      (Provision (oneFile exampleCSV) freshCtx (configured "csv" 44)).2 = Outcome.ok ∧
      (Provision (oneFile exampleCSV) freshCtx (configured "csv" 44)).1.redirects
        = some ⟨[("/old", "/new"), ("/a", "/b")]⟩ := by
  decide

/-- The sibling path: a Caddyfile block without `csv_separator` is unmarshalled into a
handler whose separator is the comma. -/
theorem parseCaddyfile_default_separator (quote : String → String) :
    (parseCaddyfile quote plainBlock).map (fun u => (u.m, u.ret))
      = some (⟨"redirects.csv", "csv", 44, none, none⟩, Outcome.ok) := by
  rfl

/-- C10, at the failing input: on a block whose `csv_separator` has the empty string as its
one argument, `UnmarshalCaddyfile` panics on `[]rune(args[0])[0]` and returns no error. -/
theorem UnmarshalCaddyfile_empty_separator_panics (quote : String → String) :
    (UnmarshalCaddyfile quote ⟨"", "", 44, none, none⟩ emptySeparatorBlock).map (fun u => u.ret)
        = some (Outcome.panic "runtime error: index out of range [0] with length 0") ∧
      (parseCaddyfile quote emptySeparatorBlock).map (fun u => u.ret)
        = some (Outcome.panic "runtime error: index out of range [0] with length 0") :=
  ⟨rfl, rfl⟩

end RedirFile
